import Mathlib

/-!
# Banker's algorithm (`banker.c`): a shallow embedding and its verification

The program keeps its state in global arrays whose sizes are the compile-time
constants `CUSTOMERS` and `RESOURCES`.  Here both constants are parameters
`C R : Nat` (the source comment allows any value `>= 0`), a one-dimensional
array `int a[R]` is a function `Fin R → Int`, and a matrix `int m[C][R]` is a
function `Fin C → Fin R → Int`.

Conventions of the embedding:

* C `int` is 32 bits wide.  A cell is an `Int`, and every `+` and `-` of the
  source on `int` operands is `iadd` or `isub`: the mathematical result reduced
  to the range `-2147483648..2147483647` by two's-complement wrap-around
  (`wrap`), which is what the compiled program computes when a signed addition
  or subtraction overflows.
* A customer index is a `Fin C`: the source indexes the matrices with it and an
  index outside `0..C-1` is an out-of-bounds access.
* The flags `completed[]` (global) and `complete[]` (local to
  `bankers_algorithm`) only ever hold `0` or `1`; they are `Bool`.
* `safeSequence[]` only ever receives customer indices; its cells are `Fin C`.
* `printf`/`printMatrix` output and the mutex calls are not part of the state.
* `while (1)` in `bankers_algorithm` is a fuel-bounded loop whose result is an
  `Except Fault _`: `Fault.outOfFuel` when the fuel runs out before the loop
  returns and `Fault.outOfBounds` when the loop would write
  `safeSequence[count]` with `count >= CUSTOMERS`.
-/

namespace Banker

/-- Ways in which an execution fails to return a value. -/
inductive Fault where
  | outOfBounds
  | outOfFuel
  deriving DecidableEq, Repr

/-- The global arrays of `banker.c` (lines 10-27). -/
structure State (C R : Nat) where
  available : Fin R → Int
  maximum : Fin C → Fin R → Int
  allocation : Fin C → Fin R → Int
  need : Fin C → Fin R → Int
  available_tmp : Fin R → Int
  allocation_tmp : Fin C → Fin R → Int
  need_tmp : Fin C → Fin R → Int
  completed : Fin C → Bool
  safeSequence : Fin C → Fin C

variable {C R : Nat}

/-- The `int` that holds the mathematical value `x` modulo `2^32`: the result
of a 32-bit two's-complement operation whose exact result is `x`. -/
def wrap (x : Int) : Int :=
  (x + 2147483648) % 4294967296 - 2147483648

/-- Source `a + b` on `int` operands. -/
def iadd (a b : Int) : Int :=
  wrap (a + b)

/-- Source `a - b` on `int` operands. -/
def isub (a b : Int) : Int :=
  wrap (a - b)

/-- Lines 196-210 of `bankers_algorithm`: copy the live arrays into the scratch
arrays, then apply the request of customer `customers` to the scratch copy. -/
def hypothetical (s : State C R) (customers : Fin C) (request : Fin R → Int) :
    State C R :=
  { s with
    available_tmp := fun i => isub (s.available i) (request i)
    allocation_tmp :=
      Function.update s.allocation customers
        (fun i => iadd (s.allocation customers i) (request i))
    need_tmp :=
      Function.update s.need customers
        (fun i => isub (s.need customers i) (request i)) }

/-- Lines 219-225: the inner loop over the resources that computes `valid` for
customer `i`.  `valid` stays `1` exactly when no `j` has
`need_tmp[i][j] > available_tmp[j] || complete[i] == 1`. -/
def valid (s : State C R) (complete : Fin C → Bool) (i : Fin C) : Bool :=
  (List.finRange R).all fun j =>
    !(decide (s.need_tmp i j > s.available_tmp j) || complete i)

/-- Lines 216-231: the scan `for (i = 0; i < CUSTOMERS; i++)` that stops at the
first `i` with `valid`; `none` stands for `customer == -1`. -/
def select (s : State C R) (complete : Fin C → Bool) : Option (Fin C) :=
  (List.finRange C).find? (valid s complete)

/-- Lines 237-239: the selected customer's scratch allocation goes back to the
scratch available vector. -/
def reclaim (s : State C R) (customer : Fin C) : Fin R → Int :=
  fun k => iadd (s.available_tmp k) (s.allocation_tmp customer k)

/-- Lines 215-249: the `while (1)` loop, one iteration per unit of fuel. -/
def safety_loop : Nat → State C R → (Fin C → Bool) → Nat →
    Except Fault (Int × State C R)
  | 0, _, _, _ => .error .outOfFuel
  | fuel + 1, s, complete, count =>
    match select s complete with
    | some customer =>
      if h : count < C then
        safety_loop fuel
          { s with
            safeSequence := Function.update s.safeSequence ⟨count, h⟩ customer
            available_tmp := reclaim s customer }
          (Function.update complete customer true) (count + 1)
      else .error .outOfBounds
    | none =>
      if (List.finRange C).all (fun i => complete i) then .ok (0, s)
      else .ok (-1, s)

/-- `bankers_algorithm` (lines 193-250).  Every iteration of the loop that does
not return increments `count`, and `count` is bounded by `C`, so `C + 1`
iterations are all the loop can make. -/
def bankers_algorithm (s : State C R) (customers : Fin C) (request : Fin R → Int) :
    Except Fault (Int × State C R) :=
  safety_loop (C + 1) (hypothetical s customers request) (fun _ => false) 0

/-- `release_resources` (lines 180-190). -/
def release_resources (s : State C R) (customers : Fin C) : State C R :=
  { s with
    available := fun j => iadd (s.available j) (s.allocation customers j)
    allocation := Function.update s.allocation customers (fun _ => 0) }

/-- Lines 150-159 of `request_resources`: the commit loop. -/
def commit (s : State C R) (customers : Fin C) (request : Fin R → Int) :
    State C R :=
  { s with
    allocation :=
      Function.update s.allocation customers
        (fun j => iadd (s.allocation customers j) (request j))
    available := fun j => isub (s.available j) (request j)
    need :=
      Function.update s.need customers
        (fun j => isub (s.need customers j) (request j)) }

/-- Lines 148-159: the flag `complete` computed by the commit loop, read on the
committed state: it is `1` when no `need[customers][j]` is non-zero. -/
def needExhausted (s : State C R) (customers : Fin C) : Bool :=
  (List.finRange R).all fun j => decide (s.need customers j = 0)

/-- Line 163: `completed[customers] = 1`. -/
def set_completed (s : State C R) (customers : Fin C) : State C R :=
  { s with completed := Function.update s.completed customers true }

/-- `request_resources` (lines 111-178): the returned status and the state the
call leaves behind.  The availability loop (lines 123-134) returns `-1` at the
first `i` with `request[i] > available[i]`; otherwise `bankers_algorithm` runs
and, on status `0`, the commit loop, then line 163 and `release_resources` when
the commit loop left `complete == 1`. -/
def request_resources (s : State C R) (customers : Fin C) (request : Fin R → Int) :
    Except Fault (Int × State C R) :=
  if (List.finRange R).any (fun i => decide (request i > s.available i)) then
    .ok (-1, s)
  else
    match bankers_algorithm s customers request with
    | .error e => .error e
    | .ok (status, t) =>
      if status = 0 then
        if needExhausted (commit t customers request) customers then
          .ok (0, release_resources
            (set_completed (commit t customers request) customers) customers)
        else .ok (0, commit t customers request)
      else .ok (-1, t)

/-! ## Specification vocabulary -/

/-- A cell holds a value of the 32-bit `int` range. -/
def IsInt (x : Int) : Prop :=
  -2147483648 ≤ x ∧ x ≤ 2147483647

/-- The available vector after the customers of `l`, in order, have each
returned their allocation to the pool that starts as `avail`, every addition
being the `int` addition of the program. -/
def pool (avail : Fin R → Int) (alloc : Fin C → Fin R → Int) :
    List (Fin C) → Fin R → Int
  | [] => avail
  | c :: l => pool (fun r => iadd (avail r) (alloc c r)) alloc l

/-- A valid completion ordering of the state `(avail, alloc, need)`: processing
the customers of the list in order, each customer's need is at most the running
available vector in every resource, and the running available vector then grows
by that customer's whole allocation (an `int` addition). -/
def ValidOrder (avail : Fin R → Int) (alloc need : Fin C → Fin R → Int) :
    List (Fin C) → Prop
  | [] => True
  | c :: l =>
    (∀ r, need c r ≤ avail r) ∧
      ValidOrder (fun r => iadd (avail r) (alloc c r)) alloc need l

instance decidableValidOrder (avail : Fin R → Int) (alloc need : Fin C → Fin R → Int) :
    (l : List (Fin C)) → Decidable (ValidOrder avail alloc need l)
  | [] => isTrue trivial
  | c :: l =>
    have := decidableValidOrder (fun r => iadd (avail r) (alloc c r)) alloc need l
    inferInstanceAs (Decidable ((∀ r, need c r ≤ avail r) ∧ _))

/-- The pool of `pool` with exact integer additions. -/
def exactPool (avail : Fin R → Int) (alloc : Fin C → Fin R → Int) :
    List (Fin C) → Fin R → Int
  | [] => avail
  | c :: l => exactPool (fun r => avail r + alloc c r) alloc l

/-- The orderings of `ValidOrder` with exact integer additions. -/
def ExactOrder (avail : Fin R → Int) (alloc need : Fin C → Fin R → Int) :
    List (Fin C) → Prop
  | [] => True
  | c :: l =>
    (∀ r, need c r ≤ avail r) ∧ ExactOrder (fun r => avail r + alloc c r) alloc need l

instance decidableExactOrder (avail : Fin R → Int) (alloc need : Fin C → Fin R → Int) :
    (l : List (Fin C)) → Decidable (ExactOrder avail alloc need l)
  | [] => isTrue trivial
  | c :: l =>
    have := decidableExactOrder (fun r => avail r + alloc c r) alloc need l
    inferInstanceAs (Decidable ((∀ r, need c r ≤ avail r) ∧ _))

/-- The loop invariant of `safety_loop`: `l` lists the customers selected so
far, `a0` is the scratch available vector before the first round. -/
structure LoopInv (a0 : Fin R → Int) (s : State C R) (complete : Fin C → Bool)
    (count : Nat) (l : List (Fin C)) : Prop where
  len : l.length = count
  nodup : l.Nodup
  compl : ∀ c, complete c = true ↔ c ∈ l
  seq : ∀ i : Fin C, i.val < count → l[i.val]? = some (s.safeSequence i)
  avail : s.available_tmp = pool a0 s.allocation_tmp l
  order : ValidOrder a0 s.allocation_tmp s.need_tmp l

/-- What `safety_loop` has established when it returns status `st` and state
`s'`, having selected the customers `l` in order. -/
structure LoopPost (a0 : Fin R → Int) (s : State C R) (st : Int) (s' : State C R)
    (l : List (Fin C)) : Prop where
  nodup : l.Nodup
  seq : ∀ i : Fin C, i.val < l.length → l[i.val]? = some (s'.safeSequence i)
  order : ValidOrder a0 s.allocation_tmp s.need_tmp l
  stuck : ∀ c, c ∉ l → ∃ r, s.need_tmp c r > pool a0 s.allocation_tmp l r
  status : (st = 0 ∧ ∀ c, c ∈ l) ∨ (st = -1 ∧ ∃ c, c ∉ l)
  avail : s'.available_tmp = pool a0 s.allocation_tmp l
  scratch : s'.allocation_tmp = s.allocation_tmp ∧ s'.need_tmp = s.need_tmp
  frame : s'.available = s.available ∧ s'.maximum = s.maximum ∧
    s'.allocation = s.allocation ∧ s'.need = s.need ∧ s'.completed = s.completed

/-- The available vector of the state in which `request` has been granted. -/
def postGrantAvailable (s : State C R) (request : Fin R → Int) : Fin R → Int :=
  fun r => isub (s.available r) (request r)

/-- The allocation matrix of the state in which customer `c` has been granted
`request`. -/
def postGrantAllocation (s : State C R) (c : Fin C) (request : Fin R → Int) :
    Fin C → Fin R → Int :=
  fun c' r => if c' = c then iadd (s.allocation c r) (request r) else s.allocation c' r

/-- The need matrix of the state in which customer `c` has been granted
`request`. -/
def postGrantNeed (s : State C R) (c : Fin C) (request : Fin R → Int) :
    Fin C → Fin R → Int :=
  fun c' r => if c' = c then isub (s.need c r) (request r) else s.need c' r

/-- The live arrays agree in two states. -/
def SameLive (s t : State C R) : Prop :=
  t.available = s.available ∧ t.maximum = s.maximum ∧ t.allocation = s.allocation ∧
    t.need = s.need ∧ t.completed = s.completed

/-- The four ways in which `request_resources` returns. -/
inductive Outcome (s : State C R) (c : Fin C) (req : Fin R → Int) :
    Int → State C R → Prop where
  | insufficient (i : Fin R) (h : req i > s.available i) : Outcome s c req (-1) s
  | notSafe (t : State C R) (havail : ∀ i, req i ≤ s.available i)
      (h : bankers_algorithm s c req = .ok (-1, t)) : Outcome s c req (-1) t
  | granted (t : State C R) (havail : ∀ i, req i ≤ s.available i)
      (h : bankers_algorithm s c req = .ok (0, t))
      (hneed : ∃ r, isub (s.need c r) (req r) ≠ 0) : Outcome s c req 0 (commit t c req)
  | released (t : State C R) (havail : ∀ i, req i ≤ s.available i)
      (h : bankers_algorithm s c req = .ok (0, t))
      (hneed : ∀ r, isub (s.need c r) (req r) = 0) :
      Outcome s c req 0
        (release_resources (set_completed (commit t c req) c) c)

/-- The exact supply of resource `r`: the sum of `allocation[c][r]` over all
customers plus `available[r]`, as an integer. -/
def supply (s : State C R) (r : Fin R) : Int :=
  (∑ c : Fin C, s.allocation c r) + s.available r

/-- The exact supply of resource `r` in the state in which customer `c` has
been granted `request`. -/
def postGrantSupply (s : State C R) (c : Fin C) (request : Fin R → Int) (r : Fin R) : Int :=
  (∑ c' : Fin C, postGrantAllocation s c request c' r) + postGrantAvailable s request r

/-- Need consistency: `need[c][r] = maximum[c][r] - allocation[c][r]`
everywhere, the subtraction being the `int` subtraction of the program. -/
def NeedConsistent (s : State C R) : Prop :=
  ∀ c r, s.need c r = isub (s.maximum c r) (s.allocation c r)

/-- A state with the given live arrays, zeroed scratch arrays, no customer
completed and `safeSequence` all `0` (the C initialiser `{0}`); it needs at
least one customer. -/
def mkState (available : Fin R → Int) (maximum allocation need : Fin (C + 1) → Fin R → Int) :
    State (C + 1) R :=
  { available := available
    maximum := maximum
    allocation := allocation
    need := need
    available_tmp := fun _ => 0
    allocation_tmp := fun _ _ => 0
    need_tmp := fun _ _ => 0
    completed := fun _ => false
    safeSequence := fun _ => 0 }

/-- Two customers, one resource: `available = [3]`, `maximum = [2],[2]`,
`allocation = [0],[0]`, `need = [2],[2]`. -/
def stateFresh : State 2 1 :=
  mkState (fun _ => 3) (fun _ _ => 2) (fun _ _ => 0) (fun _ _ => 2)

/-- Two customers, one resource: `available = [0]`, `maximum = [2],[2]`,
`allocation = [1],[1]`, `need = [1],[1]`; nobody can finish. -/
def stateStuck : State 2 1 :=
  mkState (fun _ => 0) (fun _ _ => 2) (fun _ _ => 1) (fun _ _ => 1)

/-- One customer, one resource: `available = [5]`, `maximum = [1]`,
`allocation = [0]`, `need = [1]`. -/
def stateSmallNeed : State 1 1 :=
  mkState (fun _ => 5) (fun _ _ => 1) (fun _ _ => 0) (fun _ _ => 1)

/-- Two customers, one resource: `available = [2]`, `maximum = [3],[3]`,
`allocation = [1],[1]`, `need = [2],[2]`. -/
def stateTight : State 2 1 :=
  mkState (fun _ => 2) (fun _ _ => 3) (fun _ _ => 1) (fun _ _ => 2)

/-- Two customers, one resource, the pool at `INT_MAX`:
`available = [2147483647]`, `maximum = [1],[5]`, `allocation = [1],[0]`,
`need = [0],[5]`. -/
def stateBrim : State 2 1 :=
  mkState (fun _ => 2147483647) (fun c _ => if c = 0 then 1 else 5)
    (fun c _ => if c = 0 then 1 else 0) (fun c _ => if c = 0 then 0 else 5)

/-- The matrices of `stateBrim` with `available = [5]`. -/
def stateFive : State 2 1 :=
  mkState (fun _ => 5) (fun c _ => if c = 0 then 1 else 5)
    (fun c _ => if c = 0 then 1 else 0) (fun c _ => if c = 0 then 0 else 5)

/-- One customer, one resource, the pool at `INT_MAX`:
`available = [2147483647]`, `maximum = [1]`, `allocation = [1]`, `need = [0]`. -/
def stateBrimOne : State 1 1 :=
  mkState (fun _ => 2147483647) (fun _ _ => 1) (fun _ _ => 1) (fun _ _ => 0)

/-- One customer and no resource type (`CUSTOMERS = 1`, `RESOURCES = 0`). -/
def stateNoResource : State 1 0 :=
  mkState (fun _ => 0) (fun _ _ => 0) (fun _ _ => 0) (fun _ _ => 0)

/-- The state `main` sets up (lines 56-65, with `completed` from line 26):
nothing allocated, `need = maximum >= 0`, no customer completed. -/
def Initial (s : State C R) : Prop :=
  (∀ c r, s.allocation c r = 0) ∧ (∀ c r, s.need c r = s.maximum c r) ∧
    (∀ c r, 0 ≤ s.maximum c r) ∧ ∀ c, s.completed c = false

/-- States reached from `s₀` by returning calls of `request_resources` whose
request is one `make_requests` can generate (line 99): each `request[r]` lies
in `0..need[customer][r]` at the time of the call. -/
inductive ReachableWithin (s₀ : State C R) : State C R → Prop where
  | init : ReachableWithin s₀ s₀
  | step (s : State C R) (c : Fin C) (req : Fin R → Int) (st : Int) (s' : State C R)
      (hs : ReachableWithin s₀ s) (hreq : ∀ r, 0 ≤ req r ∧ req r ≤ s.need c r)
      (h : request_resources s c req = .ok (st, s')) : ReachableWithin s₀ s'

/-- The customers that `safety_loop` selects, in the order of the rounds: the
same recursion as `safety_loop`, keeping only the value of `customer` in each
round that selects one. -/
def selections : Nat → State C R → (Fin C → Bool) → Nat → List (Fin C)
  | 0, _, _, _ => []
  | fuel + 1, s, complete, count =>
    match select s complete with
    | some customer =>
      if h : count < C then
        customer ::
          selections fuel
            { s with
              safeSequence := Function.update s.safeSequence ⟨count, h⟩ customer
              available_tmp := reclaim s customer }
            (Function.update complete customer true) (count + 1)
      else []
    | none => []

/-! ## The `int` arithmetic -/

theorem wrap_eq_self {x : Int} (h : IsInt x) : wrap x = x := by
  unfold IsInt at h
  unfold wrap
  omega

theorem isInt_wrap (x : Int) : IsInt (wrap x) := by
  unfold IsInt wrap
  omega

theorem sum_le_sum_univ (alloc : Fin C → Fin R → Int) (halloc : ∀ c r, 0 ≤ alloc c r)
    (F : Finset (Fin C)) (r : Fin R) : ∑ c in F, alloc c r ≤ ∑ c, alloc c r :=
  Finset.sum_le_sum_of_subset_of_nonneg (Finset.subset_univ F) (fun c _ _ => halloc c r)

theorem sum_update_row (m : Fin C → Fin R → Int) (c : Fin C) (v : Fin R → Int) (r : Fin R) :
    ∑ c', Function.update m c v c' r = (∑ c', m c' r) - m c r + v r := by
  have h1 : ∀ c', Function.update m c v c' r =
      Function.update (fun x => m x r) c (v r) c' := by
    intro c'
    by_cases h : c' = c
    · subst h; simp
    · simp [Function.update_noteq h]
  simp only [h1]
  rw [Finset.sum_update_of_mem (Finset.mem_univ c)]
  have h2 := Finset.add_sum_erase Finset.univ (fun x => m x r) (Finset.mem_univ c)
  rw [Finset.sdiff_singleton_eq_erase]
  simp only at h2
  omega

theorem row_le_sum (m : Fin C → Fin R → Int) (hm : ∀ c r, 0 ≤ m c r) (c : Fin C)
    (r : Fin R) : m c r ≤ ∑ c', m c' r :=
  Finset.single_le_sum (f := fun c' => m c' r) (fun i _ => hm i r) (Finset.mem_univ c)

/-- When the allocations are non-negative and the pool with all the customers
of the list returned fits in an `int`, no addition of `pool` overflows: the
`int` pool and orderings are the exact ones. -/
theorem pool_eq_exactPool (alloc need : Fin C → Fin R → Int)
    (halloc : ∀ c r, 0 ≤ alloc c r) :
    ∀ (l : List (Fin C)) (a : Fin R → Int), l.Nodup →
      (∀ r, -2147483648 ≤ a r) →
      (∀ r, a r + ∑ c in l.toFinset, alloc c r ≤ 2147483647) →
      pool a alloc l = exactPool a alloc l ∧
        (ValidOrder a alloc need l ↔ ExactOrder a alloc need l) := by
  intro l
  induction l with
  | nil => intro a _ _ _; exact ⟨rfl, Iff.rfl⟩
  | cons x rest ih =>
    intro a hnd hlo hhi
    rw [List.nodup_cons] at hnd
    have hsum : ∀ r, ∑ c in (x :: rest).toFinset, alloc c r =
        alloc x r + ∑ c in rest.toFinset, alloc c r := by
      intro r
      rw [List.toFinset_cons, Finset.sum_insert (by simpa using hnd.1)]
    have hrest : ∀ r, 0 ≤ ∑ c in rest.toFinset, alloc c r :=
      fun r => Finset.sum_nonneg (fun c _ => halloc c r)
    have hstep : (fun r => iadd (a r) (alloc x r)) = fun r => a r + alloc x r := by
      funext r
      apply wrap_eq_self
      have h1 := hlo r
      have h2 := hhi r
      have h3 := hrest r
      have h4 := halloc x r
      rw [hsum r] at h2
      unfold IsInt
      omega
    have hih := ih (fun r => a r + alloc x r) hnd.2
      (fun r => by have := hlo r; have := halloc x r; show -2147483648 ≤ a r + alloc x r; omega)
      (fun r => by
        have h2 := hhi r
        rw [hsum r] at h2
        show a r + alloc x r + ∑ c in rest.toFinset, alloc c r ≤ 2147483647
        omega)
    constructor
    · show pool (fun r => iadd (a r) (alloc x r)) alloc rest =
        exactPool (fun r => a r + alloc x r) alloc rest
      rw [hstep]
      exact hih.1
    · show ((∀ r, need x r ≤ a r) ∧
          ValidOrder (fun r => iadd (a r) (alloc x r)) alloc need rest) ↔
        ((∀ r, need x r ≤ a r) ∧ ExactOrder (fun r => a r + alloc x r) alloc need rest)
      rw [hstep, hih.2]

/-! ## The safety loop -/

theorem pool_append (avail : Fin R → Int) (alloc : Fin C → Fin R → Int)
    (l₁ l₂ : List (Fin C)) :
    pool avail alloc (l₁ ++ l₂) = pool (pool avail alloc l₁) alloc l₂ := by
  induction l₁ generalizing avail with
  | nil => rfl
  | cons c l ih => simpa [pool] using ih _

theorem validOrder_append (avail : Fin R → Int) (alloc need : Fin C → Fin R → Int)
    (l₁ l₂ : List (Fin C)) :
    ValidOrder avail alloc need (l₁ ++ l₂) ↔
      ValidOrder avail alloc need l₁ ∧ ValidOrder (pool avail alloc l₁) alloc need l₂ := by
  induction l₁ generalizing avail with
  | nil => simp [ValidOrder, pool]
  | cons c l ih => simp [ValidOrder, pool, ih, and_assoc]

theorem exactPool_eq_sum (avail : Fin R → Int) (alloc : Fin C → Fin R → Int)
    (l : List (Fin C)) (r : Fin R) :
    exactPool avail alloc l r = avail r + (l.map fun c => alloc c r).sum := by
  induction l generalizing avail with
  | nil => simp [exactPool]
  | cons c l ih => simp [exactPool, ih, add_assoc]

/-- With at least one resource, `valid` holds for a customer exactly when it is
not yet finished and its scratch need fits in the scratch available vector. -/
theorem valid_eq_true_iff (hR : 0 < R) (s : State C R) (complete : Fin C → Bool) (i : Fin C) :
    valid s complete i = true ↔
      complete i = false ∧ ∀ j, s.need_tmp i j ≤ s.available_tmp j := by
  unfold valid
  simp only [List.all_eq_true, List.mem_finRange, true_implies, Bool.not_eq_true',
    Bool.or_eq_false_iff, decide_eq_false_iff_not, not_lt]
  constructor
  · intro h
    exact ⟨(h ⟨0, hR⟩).2, fun j => (h j).1⟩
  · rintro ⟨h1, h2⟩ j
    exact ⟨h2 j, h1⟩

theorem select_eq_none_iff (s : State C R) (complete : Fin C → Bool) :
    select s complete = none ↔ ∀ i, valid s complete i = false := by
  simp [select]

theorem length_le_of_nodup {l : List (Fin C)} (h : l.Nodup) : l.length ≤ C := by
  simpa using h.length_le_card

/-- From a state satisfying the loop invariant and with enough fuel, the loop
returns (for `R >= 1`), and the customers it has selected satisfy `LoopPost`. -/
theorem safety_loop_spec (hR : 0 < R) (a0 : Fin R → Int) :
    ∀ (fuel : Nat) (s : State C R) (complete : Fin C → Bool) (count : Nat)
      (l : List (Fin C)), LoopInv a0 s complete count l → C + 1 ≤ fuel + count →
      ∃ st s' l', safety_loop fuel s complete count = .ok (st, s') ∧
        LoopPost a0 s st s' l' := by
  intro fuel
  induction fuel with
  | zero =>
    intro s complete count l hinv hfuel
    have := length_le_of_nodup hinv.nodup
    have := hinv.len
    omega
  | succ fuel ih =>
    intro s complete count l hinv hfuel
    unfold safety_loop
    cases hsel : select s complete with
    | none =>
      have hstuck : ∀ c, c ∉ l → ∃ r, s.need_tmp c r > pool a0 s.allocation_tmp l r := by
        intro c hc
        have hv := (select_eq_none_iff s complete).1 hsel c
        have hcf : complete c = false := by
          cases hcc : complete c with
          | false => rfl
          | true => exact absurd ((hinv.compl c).1 hcc) hc
        by_contra hne
        push_neg at hne
        have : valid s complete c = true :=
          (valid_eq_true_iff hR s complete c).2 ⟨hcf, fun j => by rw [hinv.avail]; exact hne j⟩
        rw [hv] at this
        exact Bool.noConfusion this
      by_cases hall : ((List.finRange C).all fun i => complete i) = true
      · refine ⟨0, s, l, by simp [hall], ?_⟩
        refine ⟨hinv.nodup, ?_, hinv.order, hstuck, Or.inl ⟨rfl, ?_⟩, hinv.avail, ⟨rfl, rfl⟩,
          ⟨rfl, rfl, rfl, rfl, rfl⟩⟩
        · intro i hi; exact hinv.seq i (by rw [← hinv.len]; exact hi)
        · intro c
          rw [List.all_eq_true] at hall
          exact (hinv.compl c).1 (hall c (List.mem_finRange c))
      · refine ⟨-1, s, l, by simp [hall], ?_⟩
        refine ⟨hinv.nodup, ?_, hinv.order, hstuck, Or.inr ⟨rfl, ?_⟩, hinv.avail, ⟨rfl, rfl⟩,
          ⟨rfl, rfl, rfl, rfl, rfl⟩⟩
        · intro i hi; exact hinv.seq i (by rw [← hinv.len]; exact hi)
        · rw [List.all_eq_true] at hall
          push_neg at hall
          obtain ⟨c, -, hc⟩ := hall
          exact ⟨c, fun hmem => hc ((hinv.compl c).2 hmem)⟩
    | some customer =>
      have hv : valid s complete customer = true := List.find?_some hsel
      obtain ⟨hcf, hneed⟩ := (valid_eq_true_iff hR s complete customer).1 hv
      have hnot : customer ∉ l := fun hmem => by
        rw [(hinv.compl customer).2 hmem] at hcf
        exact Bool.noConfusion hcf
      have hnd : (l ++ [customer]).Nodup := by
        rw [List.nodup_append]
        exact ⟨hinv.nodup, List.nodup_singleton _, by simpa using hnot⟩
      have hlen : count < C := by
        have := length_le_of_nodup hnd
        have := hinv.len
        simp at *
        omega
      simp only [hlen, dite_true]
      have hinv' : LoopInv a0
          { s with
            safeSequence := Function.update s.safeSequence ⟨count, hlen⟩ customer
            available_tmp := reclaim s customer }
          (Function.update complete customer true) (count + 1) (l ++ [customer]) := by
        refine ⟨by simp [hinv.len], hnd, ?_, ?_, ?_, ?_⟩
        · intro c
          by_cases hc : c = customer
          · subst hc; simp
          · simp [Function.update_noteq hc, hinv.compl c, hc]
        · intro i hi
          by_cases hic : i = ⟨count, hlen⟩
          · subst hic
            simp [← hinv.len]
          · have hlt : i.val < count := by
              have : i.val ≠ count := fun h => hic (Fin.ext h)
              omega
            simp only [Function.update_noteq hic]
            rw [List.getElem?_append_left (by rw [hinv.len]; exact hlt)]
            exact hinv.seq i hlt
        · show reclaim s customer = pool a0 s.allocation_tmp (l ++ [customer])
          rw [pool_append, ← hinv.avail]
          rfl
        · show ValidOrder a0 s.allocation_tmp s.need_tmp (l ++ [customer])
          rw [validOrder_append]
          refine ⟨hinv.order, ?_, trivial⟩
          rw [← hinv.avail]
          exact hneed
      obtain ⟨st, s', l', hrun, hpost⟩ := ih _ _ _ _ hinv' (by omega)
      exact ⟨st, s', l', hrun, ⟨hpost.nodup, hpost.seq, hpost.order, hpost.stuck, hpost.status,
        hpost.avail, hpost.scratch, hpost.frame⟩⟩

theorem hypothetical_available_tmp (s : State C R) (c : Fin C) (req : Fin R → Int) :
    (hypothetical s c req).available_tmp = postGrantAvailable s req := rfl

theorem hypothetical_allocation_tmp (s : State C R) (c : Fin C) (req : Fin R → Int) :
    (hypothetical s c req).allocation_tmp = postGrantAllocation s c req := by
  funext c' r
  by_cases h : c' = c
  · subst h; simp [hypothetical, postGrantAllocation]
  · simp [hypothetical, postGrantAllocation, Function.update_noteq h, h]

theorem hypothetical_need_tmp (s : State C R) (c : Fin C) (req : Fin R → Int) :
    (hypothetical s c req).need_tmp = postGrantNeed s c req := by
  funext c' r
  by_cases h : c' = c
  · subst h; simp [hypothetical, postGrantNeed]
  · simp [hypothetical, postGrantNeed, Function.update_noteq h, h]

/-- What a call of `bankers_algorithm` establishes, for `R >= 1`: it returns,
and the customers it selected form a valid order at which the scan is stuck. -/
theorem bankers_algorithm_spec (hR : 0 < R) (s : State C R) (c : Fin C)
    (req : Fin R → Int) :
    ∃ st s' l, bankers_algorithm s c req = .ok (st, s') ∧
      LoopPost (postGrantAvailable s req) (hypothetical s c req) st s' l := by
  apply safety_loop_spec hR (postGrantAvailable s req) (C + 1) (hypothetical s c req)
    (fun _ => false) 0 []
  · exact ⟨rfl, List.nodup_nil, by simp, by simp, rfl, trivial⟩
  · omega

theorem exactPool_eq_finset_sum (avail : Fin R → Int) (alloc : Fin C → Fin R → Int)
    {l : List (Fin C)} (hl : l.Nodup) (r : Fin R) :
    exactPool avail alloc l r = avail r + ∑ c in l.toFinset, alloc c r := by
  rw [exactPool_eq_sum, List.sum_toFinset _ hl]

/-- When every customer outside the nodup list `l` needs more than the exact
pool after `l`, and allocations are non-negative, no nodup list containing a
customer outside `l` is an exact order, from any pool made of `a` and
allocations of customers of `l`. -/
theorem not_exactOrder_of_stuck (a : Fin R → Int) (alloc need : Fin C → Fin R → Int)
    (halloc : ∀ c r, 0 ≤ alloc c r) (l : List (Fin C)) (hl : l.Nodup)
    (hstuck : ∀ c, c ∉ l → ∃ r, need c r > exactPool a alloc l r) :
    ∀ (l' : List (Fin C)) (a' : Fin R → Int) (F : Finset (Fin C)),
      F ⊆ l.toFinset → (∀ c ∈ l', c ∉ F) → l'.Nodup →
      (∀ r, a' r = a r + ∑ c in F, alloc c r) → (∃ x ∈ l', x ∉ l) →
      ¬ ExactOrder a' alloc need l' := by
  intro l'
  induction l' with
  | nil => intro a' F _ _ _ _ hx; simp at hx
  | cons y rest ih =>
    intro a' F hF hdisj hnd ha' hx hvalid
    obtain ⟨hy, hrest⟩ := hvalid
    by_cases hyl : y ∈ l
    · have hyF : y ∉ F := hdisj y (List.mem_cons_self _ _)
      rw [List.nodup_cons] at hnd
      refine ih (fun r => a' r + alloc y r) (insert y F) ?_ ?_ hnd.2 ?_ ?_ hrest
      · intro z hz
        rw [Finset.mem_insert] at hz
        rcases hz with rfl | hz
        · simpa using hyl
        · exact hF hz
      · intro z hz hzF
        rw [Finset.mem_insert] at hzF
        rcases hzF with rfl | hzF
        · exact hnd.1 hz
        · exact hdisj z (List.mem_cons_of_mem _ hz) hzF
      · intro r
        show a' r + alloc y r = a r + ∑ c in insert y F, alloc c r
        rw [Finset.sum_insert hyF, ha' r]
        ring
      · obtain ⟨x, hxmem, hxl⟩ := hx
        rcases List.mem_cons.1 hxmem with rfl | hxr
        · exact absurd hyl hxl
        · exact ⟨x, hxr, hxl⟩
    · obtain ⟨r, hr⟩ := hstuck y hyl
      have h1 := hy r
      rw [ha' r] at h1
      rw [exactPool_eq_finset_sum a alloc hl r] at hr
      have h2 : ∑ c in F, alloc c r ≤ ∑ c in l.toFinset, alloc c r :=
        Finset.sum_le_sum_of_subset_of_nonneg hF (fun c _ _ => halloc c r)
      omega

theorem ofFn_eq_of_getElem? {α : Type} {n : Nat} (f : Fin n → α) (l : List α)
    (hlen : l.length = n) (h : ∀ i : Fin n, l[i.val]? = some (f i)) :
    List.ofFn f = l := by
  apply List.ext_getElem?
  intro i
  by_cases hi : i < n
  · rw [h ⟨i, hi⟩, List.getElem?_eq_getElem (by simpa using hi)]
    simp
  · rw [List.getElem?_eq_none (by simpa using hi), List.getElem?_eq_none (by omega)]

theorem perm_finRange_iff (l : List (Fin C)) :
    l.Perm (List.finRange C) ↔ l.Nodup ∧ ∀ c, c ∈ l := by
  constructor
  · intro h
    exact ⟨h.nodup_iff.2 (List.nodup_finRange C), fun c => h.mem_iff.2 (List.mem_finRange c)⟩
  · rintro ⟨hnd, hall⟩
    exact (List.perm_ext_iff_of_nodup hnd (List.nodup_finRange C)).2
      (fun c => ⟨fun _ => List.mem_finRange c, fun _ => hall c⟩)

/-- The loop writes only `available_tmp` and `safeSequence`, and the status it
returns is `0` or `-1`; this needs no assumption on `R`. -/
theorem safety_loop_frame :
    ∀ (fuel : Nat) (s : State C R) (complete : Fin C → Bool) (count : Nat) (st : Int)
      (s' : State C R), safety_loop fuel s complete count = .ok (st, s') →
      SameLive s s' ∧ (st = 0 ∨ st = -1) := by
  intro fuel
  induction fuel with
  | zero => intro s complete count st s' h; simp [safety_loop] at h
  | succ fuel ih =>
    intro s complete count st s' h
    unfold safety_loop at h
    split at h
    · split at h
      · have hrec := ih _ _ _ _ _ h
        exact hrec
      · simp at h
    · split at h
      · injection h with h
        injection h with h1 h2
        subst h1 h2
        exact ⟨⟨rfl, rfl, rfl, rfl, rfl⟩, Or.inl rfl⟩
      · injection h with h
        injection h with h1 h2
        subst h1 h2
        exact ⟨⟨rfl, rfl, rfl, rfl, rfl⟩, Or.inr rfl⟩

theorem bankers_algorithm_frame (s : State C R) (c : Fin C) (req : Fin R → Int)
    (st : Int) (s' : State C R) (h : bankers_algorithm s c req = .ok (st, s')) :
    SameLive s s' ∧ (st = 0 ∨ st = -1) := by
  have hrec := safety_loop_frame _ _ _ _ _ _ h
  exact hrec

/-- With `R = 0` the inner loop never runs, so `valid` stays `1` for customer `0`
in every round: the loop never returns a status. -/
theorem safety_loop_zero_resources (hR : R = 0) (hC : 0 < C) :
    ∀ (fuel : Nat) (s : State C R) (complete : Fin C → Bool) (count : Nat),
      ∃ e, safety_loop fuel s complete count = .error e := by
  intro fuel
  induction fuel with
  | zero => intro s complete count; exact ⟨_, rfl⟩
  | succ fuel ih =>
    intro s complete count
    subst hR
    have hv : ∀ i, valid s complete i = true := by
      intro i
      simp [valid, List.finRange]
    have hsel : ∃ x, select s complete = some x := by
      cases hs : select s complete with
      | some x => exact ⟨x, rfl⟩
      | none =>
        have := (select_eq_none_iff s complete).1 hs ⟨0, hC⟩
        rw [hv] at this
        exact Bool.noConfusion this
    obtain ⟨x, hx⟩ := hsel
    unfold safety_loop
    rw [hx]
    by_cases hlt : count < C
    · simp only [hlt, dite_true]
      exact ih _ _ _
    · simp only [hlt, dite_false]
      exact ⟨_, rfl⟩

theorem resources_pos_of_bankers_ok (s : State C R) (c : Fin C) (req : Fin R → Int)
    (r : Int × State C R) (h : bankers_algorithm s c req = .ok r) : 0 < R := by
  by_contra hR
  obtain ⟨e, he⟩ := safety_loop_zero_resources (Nat.eq_zero_of_not_pos hR) c.pos (C + 1)
    (hypothetical s c req) (fun _ => false) 0
  unfold bankers_algorithm at h
  rw [he] at h
  cases h

theorem any_exceeds_iff (s : State C R) (req : Fin R → Int) :
    ((List.finRange R).any fun i => decide (req i > s.available i)) = true ↔
      ∃ i, req i > s.available i := by
  simp

theorem needExhausted_commit_iff (s t : State C R) (c : Fin C) (req : Fin R → Int)
    (h : t.need = s.need) :
    needExhausted (commit t c req) c = true ↔ ∀ r, isub (s.need c r) (req r) = 0 := by
  simp [needExhausted, commit, h]

theorem request_resources_of_exceeds (s : State C R) (c : Fin C) (req : Fin R → Int)
    (h : ∃ i, req i > s.available i) : request_resources s c req = .ok (-1, s) := by
  unfold request_resources
  rw [if_pos ((any_exceeds_iff s req).2 h)]

theorem request_resources_of_within (s : State C R) (c : Fin C) (req : Fin R → Int)
    (h : ∀ i, req i ≤ s.available i) (status : Int) (t : State C R)
    (hb : bankers_algorithm s c req = .ok (status, t)) :
    request_resources s c req =
      if status = 0 then
        if needExhausted (commit t c req) c then
          .ok (0, release_resources (set_completed (commit t c req) c) c)
        else .ok (0, commit t c req)
      else .ok (-1, t) := by
  have hno : ¬ ((List.finRange R).any fun i => decide (req i > s.available i)) = true := by
    rw [any_exceeds_iff]
    push_neg
    exact h
  unfold request_resources
  rw [if_neg hno, hb]

theorem request_resources_of_fault (s : State C R) (c : Fin C) (req : Fin R → Int)
    (h : ∀ i, req i ≤ s.available i) (e : Fault)
    (hb : bankers_algorithm s c req = .error e) :
    request_resources s c req = .error e := by
  have hno : ¬ ((List.finRange R).any fun i => decide (req i > s.available i)) = true := by
    rw [any_exceeds_iff]
    push_neg
    exact h
  unfold request_resources
  rw [if_neg hno, hb]

/-- The returning executions of `request_resources` are exactly the four of
`Outcome`. -/
theorem request_resources_outcome (s : State C R) (c : Fin C) (req : Fin R → Int)
    (st : Int) (s' : State C R) :
    request_resources s c req = .ok (st, s') ↔ Outcome s c req st s' := by
  constructor
  · intro h
    by_cases hex : ∃ i, req i > s.available i
    · rw [request_resources_of_exceeds s c req hex] at h
      injection h with h
      injection h with h1 h2
      subst h1 h2
      obtain ⟨i, hi⟩ := hex
      exact Outcome.insufficient i hi
    · push_neg at hex
      cases hb : bankers_algorithm s c req with
      | error e => rw [request_resources_of_fault s c req hex e hb] at h; cases h
      | ok r =>
        obtain ⟨status, t⟩ := r
        rw [request_resources_of_within s c req hex status t hb] at h
        have hneedeq := (bankers_algorithm_frame s c req status t hb).1.2.2.2.1
        have hstat := (bankers_algorithm_frame s c req status t hb).2
        by_cases h0 : status = 0
        · subst h0
          rw [if_pos rfl] at h
          by_cases hn : needExhausted (commit t c req) c = true
          · rw [if_pos hn] at h
            injection h with h
            injection h with h1 h2
            subst h1 h2
            exact Outcome.released t hex hb
              ((needExhausted_commit_iff s t c req hneedeq).1 hn)
          · rw [if_neg hn] at h
            injection h with h
            injection h with h1 h2
            subst h1 h2
            refine Outcome.granted t hex hb ?_
            by_contra hall
            push_neg at hall
            exact hn ((needExhausted_commit_iff s t c req hneedeq).2 hall)
        · rw [if_neg h0] at h
          injection h with h
          injection h with h1 h2
          subst h1 h2
          rcases hstat with h1 | h1
          · exact absurd h1 h0
          · subst h1
            exact Outcome.notSafe t hex hb
  · intro h
    cases h with
    | insufficient i hi => exact request_resources_of_exceeds s c req ⟨i, hi⟩
    | notSafe t havail hb =>
      rw [request_resources_of_within s c req havail _ _ hb]
      simp
    | granted t havail hb hneed =>
      have hneedeq := (bankers_algorithm_frame s c req 0 t hb).1.2.2.2.1
      have hn : ¬ needExhausted (commit t c req) c = true := by
        rw [needExhausted_commit_iff s t c req hneedeq]
        push_neg
        exact hneed
      rw [request_resources_of_within s c req havail _ _ hb]
      simp [hn]
    | released t havail hb hneed =>
      have hneedeq := (bankers_algorithm_frame s c req 0 t hb).1.2.2.2.1
      have hn : needExhausted (commit t c req) c = true :=
        (needExhausted_commit_iff s t c req hneedeq).2 hneed
      rw [request_resources_of_within s c req havail _ _ hb]
      simp [hn]

/-- The scan selects the lowest-indexed customer for which `valid` holds. -/
theorem select_eq_some_iff (s : State C R) (complete : Fin C → Bool) (c : Fin C) :
    select s complete = some c ↔
      valid s complete c = true ∧ ∀ i, i < c → valid s complete i = false := by
  unfold select
  rw [List.find?_eq_some]
  constructor
  · rintro ⟨hc, as, bs, hsplit, has⟩
    refine ⟨hc, fun i hi => ?_⟩
    have hpw := List.pairwise_lt_finRange C
    rw [hsplit, List.pairwise_append] at hpw
    obtain ⟨-, hcb, -⟩ := hpw
    rw [List.pairwise_cons] at hcb
    have hmem : i ∈ as ++ c :: bs := hsplit ▸ List.mem_finRange i
    rcases List.mem_append.1 hmem with h | h
    · simpa using has i h
    · rcases List.mem_cons.1 h with h | h
      · exact absurd h (ne_of_lt hi)
      · exact absurd (hcb.1 i h) (not_lt_of_gt hi)
  · rintro ⟨hc, hmin⟩
    obtain ⟨as, bs, hsplit⟩ := List.append_of_mem (List.mem_finRange c)
    refine ⟨hc, as, bs, hsplit, fun a ha => ?_⟩
    have hpw := List.pairwise_lt_finRange C
    rw [hsplit, List.pairwise_append] at hpw
    have hlt : a < c := hpw.2.2 a ha c (List.mem_cons_self _ _)
    simp [hmin a hlt]

/-- The fuel given by `bankers_algorithm` is never exhausted: every round that
does not return needs `count < C` and increments `count`. -/
theorem safety_loop_fuel :
    ∀ (fuel : Nat) (s : State C R) (complete : Fin C → Bool) (count : Nat),
      C ≤ fuel + count → safety_loop (fuel + 1) s complete count ≠ .error .outOfFuel := by
  intro fuel
  induction fuel with
  | zero =>
    intro s complete count hc
    have hlt : ¬ count < C := by omega
    unfold safety_loop
    split
    · simp [hlt]
    · split <;> simp
  | succ fuel ih =>
    intro s complete count hc
    unfold safety_loop
    split
    · split
      · exact ih _ _ _ (by omega)
      · simp
    · split <;> simp

theorem bankers_algorithm_fuel (s : State C R) (c : Fin C) (req : Fin R → Int) :
    bankers_algorithm s c req ≠ .error .outOfFuel :=
  safety_loop_fuel C _ _ 0 (by omega)

/-! ## Soundness and completeness of the oracle -/

theorem order_of_safe (hR : 0 < R) (s : State C R) (c : Fin C)
    (req : Fin R → Int) (s' : State C R)
    (h : bankers_algorithm s c req = .ok (0, s')) :
    ∃ l : List (Fin C), List.ofFn s'.safeSequence = l ∧ l.Perm (List.finRange C) ∧
      ValidOrder (postGrantAvailable s req) (postGrantAllocation s c req)
        (postGrantNeed s c req) l := by
  obtain ⟨st, t, l, hrun, hpost⟩ := bankers_algorithm_spec hR s c req
  rw [h] at hrun
  injection hrun with hrun
  injection hrun with hst ht
  subst hst ht
  have hall : ∀ c, c ∈ l := by
    rcases hpost.status with ⟨-, hall⟩ | ⟨hst, -⟩
    · exact hall
    · exact absurd hst (by decide)
  have hperm := (perm_finRange_iff l).2 ⟨hpost.nodup, hall⟩
  have hlen : l.length = C := by simpa using hperm.length_eq
  have heq : List.ofFn s'.safeSequence = l :=
    ofFn_eq_of_getElem? _ l hlen (fun i => hpost.seq i (by rw [hlen]; exact i.isLt))
  refine ⟨l, heq, hperm, ?_⟩
  have := hpost.order
  rwa [hypothetical_allocation_tmp, hypothetical_need_tmp] at this

/-- With non-negative allocations, a pool that starts in the `int` range and a
supply that fits in an `int`, the `int` pool and orderings of a list without
repetition are the exact ones. -/
theorem pool_eq_exactPool_of_fit (a : Fin R → Int) (alloc need : Fin C → Fin R → Int)
    (halloc : ∀ c r, 0 ≤ alloc c r) (hlo : ∀ r, -2147483648 ≤ a r)
    (hfit : ∀ r, (∑ c, alloc c r) + a r ≤ 2147483647) (l : List (Fin C)) (hl : l.Nodup) :
    pool a alloc l = exactPool a alloc l ∧
      (ValidOrder a alloc need l ↔ ExactOrder a alloc need l) := by
  refine pool_eq_exactPool alloc need halloc l a hl hlo (fun r => ?_)
  have h1 := sum_le_sum_univ alloc halloc l.toFinset r
  have h2 := hfit r
  omega

theorem postGrantAvailable_ge (s : State C R) (req : Fin R → Int) (r : Fin R) :
    -2147483648 ≤ postGrantAvailable s req r :=
  (isInt_wrap _).1

theorem no_order_when_stuck (hR : 0 < R) (s : State C R) (c : Fin C)
    (req : Fin R → Int) (s' : State C R)
    (hnn : ∀ c' r, 0 ≤ postGrantAllocation s c req c' r)
    (hfit : ∀ r, postGrantSupply s c req r ≤ 2147483647)
    (h : bankers_algorithm s c req = .ok (-1, s')) :
    ∀ l : List (Fin C), l.Perm (List.finRange C) →
      ¬ ValidOrder (postGrantAvailable s req) (postGrantAllocation s c req)
        (postGrantNeed s c req) l := by
  obtain ⟨st, t, l₀, hrun, hpost⟩ := bankers_algorithm_spec hR s c req
  rw [h] at hrun
  injection hrun with hrun
  injection hrun with hst ht
  subst hst ht
  intro l hl hvalid
  obtain ⟨x, hx⟩ : ∃ x, x ∉ l₀ := by
    rcases hpost.status with ⟨hst, -⟩ | ⟨-, hx⟩
    · exact absurd hst (by decide)
    · exact hx
  have hbridge := pool_eq_exactPool_of_fit (postGrantAvailable s req)
    (postGrantAllocation s c req) (postGrantNeed s c req) hnn
    (postGrantAvailable_ge s req) hfit
  have hstuck := hpost.stuck
  rw [hypothetical_allocation_tmp, hypothetical_need_tmp,
    (hbridge l₀ hpost.nodup).1] at hstuck
  have hlnd := ((perm_finRange_iff l).1 hl).1
  exact not_exactOrder_of_stuck _ _ _ hnn l₀ hpost.nodup hstuck l _ ∅ (by simp) (by simp)
    hlnd (by simp) ⟨x, ((perm_finRange_iff l).1 hl).2 x, hx⟩ ((hbridge l hlnd).2.1 hvalid)

theorem postGrantAllocation_nonneg (s : State C R) (c : Fin C) (req : Fin R → Int)
    (halloc : ∀ c' r, 0 ≤ s.allocation c' r)
    (hreq : ∀ r, 0 ≤ iadd (s.allocation c r) (req r)) :
    ∀ c' r, 0 ≤ postGrantAllocation s c req c' r := by
  intro c' r
  unfold postGrantAllocation
  split
  · exact hreq r
  · exact halloc c' r

/-- C1 (oracle soundness).  For `R >= 1`: when `bankers_algorithm` returns `0`,
the recorded `safeSequence[0..C-1]` is a permutation of all customers and is a
valid completion ordering of the state in which the request is granted
(available `- request`, the customer's allocation `+ request`, its need
`- request`). -/
theorem bankers_algorithm_sound (hR : 0 < R) (s : State C R) (c : Fin C)
    (req : Fin R → Int) (s' : State C R)
    (h : bankers_algorithm s c req = .ok (0, s')) :
    (List.ofFn s'.safeSequence).Perm (List.finRange C) ∧
      ValidOrder (postGrantAvailable s req) (postGrantAllocation s c req)
        (postGrantNeed s c req) (List.ofFn s'.safeSequence) := by
  obtain ⟨l, heq, hperm, hvalid⟩ := order_of_safe hR s c req s' h
  rw [heq]
  exact ⟨hperm, hvalid⟩

/-- Witness of C1: in `stateFresh` the oracle accepts the request `[1]` of
customer `1`. -/
theorem bankers_algorithm_sound_witness :
    ∃ s', bankers_algorithm stateFresh 1 (fun _ => 1) = .ok (0, s') ∧
      (List.ofFn s'.safeSequence).Perm (List.finRange 2) ∧
      ValidOrder (postGrantAvailable stateFresh fun _ => 1)
        (postGrantAllocation stateFresh 1 fun _ => 1)
        (postGrantNeed stateFresh 1 fun _ => 1) (List.ofFn s'.safeSequence) :=
  ⟨_, rfl, bankers_algorithm_sound (by decide) stateFresh 1 (fun _ => 1) _ rfl⟩

/-- Counterexample to C2 as stated: in `stateBrim` (`available = [2147483647]`,
`allocation = [1],[0]`, `need = [0],[5]`) with the request `[0]` of customer
`0`, the allocations and `allocation[customer] + request` are non-negative and
`bankers_algorithm` returns `-1`, although the ordering `1, 0` of all customers
is a valid completion ordering (with `int` sums and with exact sums alike).
The loop selects customer `0` first, and
`available_tmp + allocation_tmp` (line 238) overflows to `-2147483648`. -/
theorem bankers_algorithm_complete_counterexample :
    (∀ c' r, 0 ≤ stateBrim.allocation c' r) ∧
      (∀ r, 0 ≤ stateBrim.allocation 0 r + (fun _ => 0 : Fin 1 → Int) r) ∧
      (∃ s', bankers_algorithm stateBrim 0 (fun _ => 0) = .ok (-1, s') ∧
        s'.available_tmp 0 = -2147483648) ∧
      [1, 0].Perm (List.finRange 2) ∧
      ValidOrder (postGrantAvailable stateBrim fun _ => 0)
        (postGrantAllocation stateBrim 0 fun _ => 0)
        (postGrantNeed stateBrim 0 fun _ => 0) [1, 0] ∧
      ExactOrder (postGrantAvailable stateBrim fun _ => 0)
        (postGrantAllocation stateBrim 0 fun _ => 0)
        (postGrantNeed stateBrim 0 fun _ => 0) [1, 0] :=
  ⟨by decide, by decide, ⟨_, rfl, by decide⟩, by decide, by decide, by decide⟩

/-- C2 as amended (oracle completeness).  For `R >= 1`, a non-negative
allocation matrix, `allocation[customer] + request` (the `int` sum)
non-negative, and a post-grant supply that fits in an `int` for every resource
(`available[r] - request[r]` plus the post-grant allocations of all customers
is at most `2147483647`, so that no addition of the loop overflows): when
`bankers_algorithm` returns `-1`, no ordering of all customers is a valid
completion ordering of the state in which the request is granted, whether the
running available vector is summed in `int` arithmetic or exactly. -/
theorem bankers_algorithm_complete_amended (hR : 0 < R) (s : State C R) (c : Fin C)
    (req : Fin R → Int) (s' : State C R)
    (halloc : ∀ c' r, 0 ≤ s.allocation c' r)
    (hreq : ∀ r, 0 ≤ iadd (s.allocation c r) (req r))
    (hfit : ∀ r, postGrantSupply s c req r ≤ 2147483647)
    (h : bankers_algorithm s c req = .ok (-1, s')) :
    ∀ l : List (Fin C), l.Perm (List.finRange C) →
      ¬ ValidOrder (postGrantAvailable s req) (postGrantAllocation s c req)
          (postGrantNeed s c req) l ∧
        ¬ ExactOrder (postGrantAvailable s req) (postGrantAllocation s c req)
          (postGrantNeed s c req) l := by
  intro l hl
  have hnn := postGrantAllocation_nonneg s c req halloc hreq
  have hno := no_order_when_stuck hR s c req s' hnn hfit h l hl
  refine ⟨hno, fun hex => hno ?_⟩
  exact (pool_eq_exactPool_of_fit _ _ _ hnn (postGrantAvailable_ge s req) hfit l
    ((perm_finRange_iff l).1 hl).1).2.2 hex

/-- Witness of the amended C2: in `stateStuck` the oracle refuses the request
`[0]` of customer `0`. -/
theorem bankers_algorithm_complete_amended_witness :
    ∃ s', bankers_algorithm stateStuck 0 (fun _ => 0) = .ok (-1, s') ∧
      ∀ l : List (Fin 2), l.Perm (List.finRange 2) →
        ¬ ValidOrder (postGrantAvailable stateStuck fun _ => 0)
            (postGrantAllocation stateStuck 0 fun _ => 0)
            (postGrantNeed stateStuck 0 fun _ => 0) l ∧
          ¬ ExactOrder (postGrantAvailable stateStuck fun _ => 0)
            (postGrantAllocation stateStuck 0 fun _ => 0)
            (postGrantNeed stateStuck 0 fun _ => 0) l :=
  ⟨_, rfl, bankers_algorithm_complete_amended (by decide) stateStuck 0 (fun _ => 0) _
    (by decide) (by decide) (by decide) rfl⟩

/-! ## Safety of the committed state -/

theorem exactOrder_mono_of_not_mem (alloc alloc' need : Fin C → Fin R → Int) (c : Fin C)
    (hoff : ∀ x, x ≠ c → alloc' x = alloc x) :
    ∀ (l : List (Fin C)) (a a' : Fin R → Int), c ∉ l → (∀ r, a r ≤ a' r) →
      ExactOrder a alloc need l → ExactOrder a' alloc' need l := by
  intro l
  induction l with
  | nil => intro a a' _ _ _; trivial
  | cons x rest ih =>
    intro a a' hc hle hv
    have hxc : x ≠ c := fun h => hc (h ▸ List.mem_cons_self _ _)
    refine ⟨fun r => le_trans (hv.1 r) (hle r), ?_⟩
    refine ih _ _ (fun h => hc (List.mem_cons_of_mem _ h)) ?_ hv.2
    intro r
    show a r + alloc x r ≤ a' r + alloc' x r
    rw [hoff x hxc]
    have := hle r
    omega

/-- A valid order stays valid when customer `c` hands back its (non-negative)
allocation: its row becomes zero and the exactPool grows by at least that row. -/
theorem exactOrder_after_release (alloc alloc' need : Fin C → Fin R → Int) (c : Fin C)
    (hoff : ∀ x, x ≠ c → alloc' x = alloc x) (hc0 : ∀ r, alloc' c r = 0)
    (hcnn : ∀ r, 0 ≤ alloc c r) :
    ∀ (l : List (Fin C)) (a a' : Fin R → Int), l.Nodup →
      (∀ r, a r + alloc c r ≤ a' r) →
      ExactOrder a alloc need l → ExactOrder a' alloc' need l := by
  intro l
  induction l with
  | nil => intro a a' _ _ _; trivial
  | cons x rest ih =>
    intro a a' hnd hle hv
    rw [List.nodup_cons] at hnd
    have hfst : ∀ r, need x r ≤ a' r := fun r => by
      have h1 := hv.1 r
      have h2 := hle r
      have h3 := hcnn r
      omega
    by_cases hxc : x = c
    · subst hxc
      refine ⟨hfst, ?_⟩
      refine exactOrder_mono_of_not_mem alloc alloc' need x hoff rest _ _ hnd.1 ?_ hv.2
      intro r
      show a r + alloc x r ≤ a' r + alloc' x r
      rw [hc0 r]
      have := hle r
      omega
    · refine ⟨hfst, ?_⟩
      refine ih _ _ hnd.2 ?_ hv.2
      intro r
      show a r + alloc x r + alloc c r ≤ a' r + alloc' x r
      rw [hoff x hxc]
      have := hle r
      omega


theorem postGrant_zero (s : State C R) (c : Fin C)
    (hav : ∀ r, IsInt (s.available r)) (hal : ∀ r, IsInt (s.allocation c r))
    (hne : ∀ r, IsInt (s.need c r)) :
    postGrantAvailable s (fun _ => 0) = s.available ∧
      postGrantAllocation s c (fun _ => 0) = s.allocation ∧
      postGrantNeed s c (fun _ => 0) = s.need := by
  refine ⟨?_, ?_, ?_⟩
  · funext r
    simp [postGrantAvailable, isub, wrap_eq_self (hav r)]
  · funext c' r
    unfold postGrantAllocation
    split
    · next h => subst h; simp [iadd, wrap_eq_self (hal r)]
    · rfl
  · funext c' r
    unfold postGrantNeed
    split
    · next h => subst h; simp [isub, wrap_eq_self (hne r)]
    · rfl

/-- The oracle accepts the all-zero request in a state of non-negative `int`
cells whose supply fits in an `int` and that has a valid completion ordering of
all customers. -/
theorem safe_of_order (hR : 0 < R) (s : State C R) (c : Fin C)
    (halloc : ∀ c' r, 0 ≤ s.allocation c' r) (hav : ∀ r, 0 ≤ s.available r)
    (hne : ∀ r, IsInt (s.need c r)) (hfit : ∀ r, supply s r ≤ 2147483647)
    (l : List (Fin C)) (hl : l.Perm (List.finRange C))
    (hv : ExactOrder s.available s.allocation s.need l) :
    ∃ t, bankers_algorithm s c (fun _ => 0) = .ok (0, t) := by
  obtain ⟨st, t, l₀, hrun, hpost⟩ := bankers_algorithm_spec hR s c (fun _ => 0)
  rcases (bankers_algorithm_frame s c _ st t hrun).2 with h0 | h1
  · subst h0; exact ⟨t, hrun⟩
  · subst h1
    exfalso
    have hsum : ∀ r, 0 ≤ ∑ c', s.allocation c' r :=
      fun r => Finset.sum_nonneg (fun c' _ => halloc c' r)
    have havint : ∀ r, IsInt (s.available r) := fun r => by
      have h1 := hav r
      have h2 := hfit r
      have h3 := hsum r
      unfold supply at h2
      unfold IsInt
      omega
    have halint : ∀ r, IsInt (s.allocation c r) := fun r => by
      have h1 := hav r
      have h2 := hfit r
      have h3 := row_le_sum s.allocation halloc c r
      have h4 := halloc c r
      unfold supply at h2
      unfold IsInt
      omega
    obtain ⟨ha, hb, hn⟩ := postGrant_zero s c havint halint hne
    have hnn : ∀ c' r, 0 ≤ postGrantAllocation s c (fun _ => 0) c' r := by
      rw [hb]; exact halloc
    have hfit' : ∀ r, postGrantSupply s c (fun _ => 0) r ≤ 2147483647 := by
      intro r
      unfold postGrantSupply
      rw [ha, hb]
      exact hfit r
    have hno := no_order_when_stuck hR s c (fun _ => 0) t hnn hfit' hrun l hl
    rw [ha, hb, hn] at hno
    apply hno
    refine (pool_eq_exactPool_of_fit s.available s.allocation s.need halloc
      (fun r => (havint r).1) hfit l ((perm_finRange_iff l).1 hl).1).2.2 hv

/-- In a state of non-negative allocations whose supply fits in an `int`, a
non-negative request within `available` is granted without overflow. -/
theorem grant_exact (s : State C R) (c : Fin C) (req : Fin R → Int)
    (halloc : ∀ c' r, 0 ≤ s.allocation c' r) (hreq : ∀ r, 0 ≤ req r)
    (havail : ∀ r, req r ≤ s.available r) (hfit : ∀ r, supply s r ≤ 2147483647)
    (r : Fin R) :
    isub (s.available r) (req r) = s.available r - req r ∧
      iadd (s.allocation c r) (req r) = s.allocation c r + req r ∧
      iadd (isub (s.available r) (req r)) (iadd (s.allocation c r) (req r)) =
        s.available r + s.allocation c r ∧
      s.available r + s.allocation c r ≤ 2147483647 := by
  have h1 := halloc c r
  have h2 := hreq r
  have h3 := havail r
  have h4 := hfit r
  have h5 := row_le_sum s.allocation halloc c r
  unfold supply at h4
  unfold isub iadd wrap
  omega

theorem postGrantAllocation_eq_update (s : State C R) (c : Fin C) (req : Fin R → Int) :
    postGrantAllocation s c req =
      Function.update s.allocation c (fun i => iadd (s.allocation c i) (req i)) :=
  (hypothetical_allocation_tmp s c req).symm

theorem postGrantSupply_eq (s : State C R) (c : Fin C) (req : Fin R → Int)
    (halloc : ∀ c' r, 0 ≤ s.allocation c' r) (hreq : ∀ r, 0 ≤ req r)
    (havail : ∀ r, req r ≤ s.available r) (hfit : ∀ r, supply s r ≤ 2147483647)
    (r : Fin R) : postGrantSupply s c req r = supply s r := by
  obtain ⟨e1, e2, -, -⟩ := grant_exact s c req halloc hreq havail hfit r
  unfold postGrantSupply supply
  rw [postGrantAllocation_eq_update, sum_update_row]
  show (∑ c', s.allocation c' r) - s.allocation c r + iadd (s.allocation c r) (req r) +
    isub (s.available r) (req r) = (∑ c', s.allocation c' r) + s.available r
  rw [e1, e2]
  omega

theorem granted_inv (s : State C R) (c : Fin C) (req : Fin R → Int) (s' : State C R)
    (h : request_resources s c req = .ok (0, s')) :
    ∃ t, (∀ i, req i ≤ s.available i) ∧ bankers_algorithm s c req = .ok (0, t) ∧
      SameLive s t ∧
      (((∃ r, isub (s.need c r) (req r) ≠ 0) ∧ s' = commit t c req) ∨
        ((∀ r, isub (s.need c r) (req r) = 0) ∧
          s' = release_resources (set_completed (commit t c req) c) c)) := by
  rw [request_resources_outcome] at h
  generalize hst : (0 : Int) = st at h
  cases h with
  | insufficient i hi => exact absurd hst (by decide)
  | notSafe t havail hb => exact absurd hst (by decide)
  | granted t havail hb hneed =>
    exact ⟨t, havail, hb, (bankers_algorithm_frame s c req 0 t hb).1, Or.inl ⟨hneed, rfl⟩⟩
  | released t havail hb hneed =>
    exact ⟨t, havail, hb, (bankers_algorithm_frame s c req 0 t hb).1, Or.inr ⟨hneed, rfl⟩⟩

theorem rejected_inv (s : State C R) (c : Fin C) (req : Fin R → Int) (s' : State C R)
    (h : request_resources s c req = .ok (-1, s')) :
    ((∃ i, req i > s.available i) ∧ s' = s) ∨
      ((∀ i, req i ≤ s.available i) ∧ bankers_algorithm s c req = .ok (-1, s') ∧
        SameLive s s') := by
  rw [request_resources_outcome] at h
  generalize hst : (-1 : Int) = st at h
  cases h with
  | insufficient i hi => exact Or.inl ⟨⟨i, hi⟩, rfl⟩
  | notSafe t havail hb =>
    exact Or.inr ⟨havail, hb, (bankers_algorithm_frame s c req (-1) _ hb).1⟩
  | granted t havail hb hneed => exact absurd hst (by decide)
  | released t havail hb hneed => exact absurd hst (by decide)

/-- Counterexample to C3 as stated: in `stateBrimOne`
(`available = [2147483647]`, `allocation = [1]`, `need = [0]`) the request `[0]`
of customer `0` satisfies `0 <= request <= need`, the allocation is
non-negative and `request_resources` returns `0`; the completion release adds
`allocation` to `available` (line 185), which overflows to `-2147483648`, and
`bankers_algorithm` on the resulting state with the all-zero request returns
`-1`. -/
theorem request_resources_preserves_safety_counterexample :
    (∀ c' r, 0 ≤ stateBrimOne.allocation c' r) ∧
      (∀ r, 0 ≤ (fun _ => 0 : Fin 1 → Int) r ∧
        (fun _ => 0 : Fin 1 → Int) r ≤ stateBrimOne.need 0 r) ∧
      ∃ s', request_resources stateBrimOne 0 (fun _ => 0) = .ok (0, s') ∧
        s'.available 0 = -2147483648 ∧
        ∃ t, bankers_algorithm s' 0 (fun _ => 0) = .ok (-1, t) :=
  ⟨by decide, by decide, _, rfl, by decide, _, rfl⟩

/-- C3 as amended (safety preservation).  For a state of `int` cells with
non-negative allocation whose supply fits in an `int` (for every resource, the
sum of `allocation[c][r]` over all customers plus `available[r]` is at most
`2147483647`) and a request with `0 <= request[r] <= need[customer][r]`: when
`request_resources` returns `0`, the state it leaves (after the commit and, when
it fires, the completion release) is accepted by `bankers_algorithm` with the
all-zero request, whichever customer is named in that call. -/
theorem request_resources_preserves_safety_amended (s : State C R) (c : Fin C)
    (req : Fin R → Int) (s' : State C R)
    (halloc : ∀ c' r, 0 ≤ s.allocation c' r)
    (hneedint : ∀ c' r, IsInt (s.need c' r))
    (hfit : ∀ r, supply s r ≤ 2147483647)
    (hreq : ∀ r, 0 ≤ req r ∧ req r ≤ s.need c r)
    (h : request_resources s c req = .ok (0, s')) :
    ∀ c', ∃ t, bankers_algorithm s' c' (fun _ => 0) = .ok (0, t) := by
  intro c'
  obtain ⟨t, havail, hb, hlive, hcase⟩ := granted_inv s c req s' h
  obtain ⟨hta, -, htl, htn, -⟩ := hlive
  have hR := resources_pos_of_bankers_ok s c req _ hb
  obtain ⟨l, -, hperm, hvalid⟩ := order_of_safe hR s c req t hb
  have hreq0 : ∀ r, 0 ≤ req r := fun r => (hreq r).1
  have hex := grant_exact s c req halloc hreq0 havail hfit
  have hgn : ∀ r, 0 ≤ iadd (s.allocation c r) (req r) := fun r => by
    rw [(hex r).2.1]
    have := halloc c r
    have := hreq0 r
    omega
  have hnn := postGrantAllocation_nonneg s c req halloc hgn
  have hsup := postGrantSupply_eq s c req halloc hreq0 havail hfit
  have hfitH : ∀ r, (∑ c', postGrantAllocation s c req c' r) + postGrantAvailable s req r ≤
      2147483647 := fun r => by
    have := hsup r
    unfold postGrantSupply at this
    rw [this]
    exact hfit r
  have hlnd := ((perm_finRange_iff l).1 hperm).1
  have hexact : ExactOrder (postGrantAvailable s req) (postGrantAllocation s c req)
      (postGrantNeed s c req) l :=
    (pool_eq_exactPool_of_fit _ _ _ hnn (postGrantAvailable_ge s req) hfitH l hlnd).2.1 hvalid
  have hneedH : ∀ x r, IsInt (postGrantNeed s c req x r) := by
    intro x r
    unfold postGrantNeed
    split
    · exact isInt_wrap _
    · exact hneedint x r
  have havH : ∀ r, 0 ≤ postGrantAvailable s req r := fun r => by
    show 0 ≤ isub (s.available r) (req r)
    rw [(hex r).1]
    have := havail r
    omega
  rcases hcase with ⟨-, rfl⟩ | ⟨hzero, rfl⟩
  · have e1 : (commit t c req).available = postGrantAvailable s req := by
      funext r; simp [commit, postGrantAvailable, hta]
    have e2 : (commit t c req).allocation = postGrantAllocation s c req := by
      rw [← hypothetical_allocation_tmp]
      simp [commit, hypothetical, htl]
    have e3 : (commit t c req).need = postGrantNeed s c req := by
      rw [← hypothetical_need_tmp]
      simp [commit, hypothetical, htn]
    refine safe_of_order hR _ c' ?_ ?_ ?_ ?_ l hperm ?_
    · rw [e2]; exact hnn
    · rw [e1]; exact havH
    · rw [e3]; exact hneedH c'
    · intro r
      unfold supply
      rw [e1, e2]
      exact hfitH r
    · rw [e1, e2, e3]; exact hexact
  · have e3 : (release_resources (set_completed (commit t c req) c) c).need =
        postGrantNeed s c req := by
      rw [← hypothetical_need_tmp]
      simp [release_resources, set_completed, commit, hypothetical, htn]
    have e2 : (release_resources (set_completed (commit t c req) c) c).allocation =
        Function.update s.allocation c (fun _ => 0) := by
      simp [release_resources, set_completed, commit, htl]
    have e1 : ∀ r, (release_resources (set_completed (commit t c req) c) c).available r =
        s.available r + s.allocation c r := by
      intro r
      rw [← (hex r).2.2.1]
      simp [release_resources, set_completed, commit, hta, htl]
    have hoff : ∀ x, x ≠ c →
        (release_resources (set_completed (commit t c req) c) c).allocation x =
          postGrantAllocation s c req x := by
      intro x hx
      funext r
      rw [e2]
      simp [postGrantAllocation, Function.update_noteq hx, hx]
    have hc0 : ∀ r,
        (release_resources (set_completed (commit t c req) c) c).allocation c r = 0 := by
      intro r
      rw [e2]
      simp
    have hcnn : ∀ r, 0 ≤ postGrantAllocation s c req c r := fun r => hnn c r
    refine safe_of_order hR _ c' ?_ ?_ ?_ ?_ l hperm ?_
    · intro x r
      by_cases hx : x = c
      · subst hx; rw [hc0 r]
      · rw [hoff x hx]; exact hnn x r
    · intro r
      rw [e1 r]
      have := havail r
      have := hreq0 r
      have := halloc c r
      omega
    · rw [e3]; exact hneedH c'
    · intro r
      unfold supply
      rw [e1 r, e2, sum_update_row]
      have := hfit r
      unfold supply at this
      omega
    · rw [e3]
      refine exactOrder_after_release (postGrantAllocation s c req) _ _ c hoff hc0 hcnn l _ _
        hlnd ?_ hexact
      intro r
      rw [e1 r]
      show isub (s.available r) (req r) + postGrantAllocation s c req c r ≤ _
      have e4 : postGrantAllocation s c req c r = iadd (s.allocation c r) (req r) := by
        simp [postGrantAllocation]
      rw [e4, (hex r).1, (hex r).2.1]
      omega

/-- Witness of the amended C3: in `stateFresh` the request `[2]` of customer `0`
is granted (with the completion release). -/
theorem request_resources_preserves_safety_amended_witness :
    ∃ s', request_resources stateFresh 0 (fun _ => 2) = .ok (0, s') ∧
      ∀ c', ∃ t, bankers_algorithm s' c' (fun _ => 0) = .ok (0, t) :=
  ⟨_, rfl, request_resources_preserves_safety_amended stateFresh 0 (fun _ => 2) _
    (by decide) (by unfold IsInt; decide) (by unfold supply; decide) (by decide) rfl⟩

/-! ## Conservation -/

/-- Counterexample to C5 as stated: `stateFresh` satisfies
`need = maximum - allocation`, the request `[2]` of customer `0` is granted with
the completion release, and the resulting state has `need[0][0] = 0` while
`maximum[0][0] - allocation[0][0] = 2`. -/
theorem need_consistency_counterexample :
    (∀ c r, stateFresh.need c r = stateFresh.maximum c r - stateFresh.allocation c r) ∧
      ∃ s', request_resources stateFresh 0 (fun _ => 2) = .ok (0, s') ∧
        s'.need 0 0 = 0 ∧ s'.maximum 0 0 - s'.allocation 0 0 = 2 ∧
        ¬ ∀ c r, s'.need c r = s'.maximum c r - s'.allocation c r :=
  ⟨by decide, _, rfl, by decide, by decide, by decide⟩

/-- C5 as amended.  From a state with `need = maximum - allocation` everywhere
(the `int` subtraction of the program), a returning call of `request_resources` leaves a state in which the equation
holds for every customer other than the caller; it holds for the caller too when
the call is rejected or granted without the completion release; after the
completion release the caller's rows of `need` and `allocation` are both zero
and `maximum` is unchanged. -/
theorem need_consistency_amended (s : State C R) (c : Fin C) (req : Fin R → Int)
    (st : Int) (s' : State C R) (hinv : NeedConsistent s)
    (h : request_resources s c req = .ok (st, s')) :
    (∀ c' r, c' ≠ c → s'.need c' r = isub (s'.maximum c' r) (s'.allocation c' r)) ∧
      ((st = -1 ∨ ∃ r, isub (s.need c r) (req r) ≠ 0) → NeedConsistent s') ∧
      ((st = 0 ∧ ∀ r, isub (s.need c r) (req r) = 0) →
        ∀ r, s'.need c r = 0 ∧ s'.allocation c r = 0 ∧ s'.maximum c r = s.maximum c r) := by
  rw [request_resources_outcome] at h
  cases h with
  | insufficient i hi =>
    refine ⟨fun c' r _ => hinv c' r, fun _ => hinv, ?_⟩
    rintro ⟨h0, -⟩
    exact absurd h0 (by decide)
  | notSafe t havail hb =>
    obtain ⟨-, hm, hl, hn, -⟩ := (bankers_algorithm_frame s c req _ _ hb).1
    have hcons : NeedConsistent s' := by
      intro c' r
      rw [hm, hl, hn]
      exact hinv c' r
    refine ⟨fun c' r _ => hcons c' r, fun _ => hcons, ?_⟩
    rintro ⟨h0, -⟩
    exact absurd h0 (by decide)
  | granted t havail hb hneed =>
    obtain ⟨-, hm, hl, hn, -⟩ := (bankers_algorithm_frame s c req _ _ hb).1
    have hcons : NeedConsistent (commit t c req) := by
      intro c' r
      by_cases hc : c' = c
      · subst hc
        have := hinv c' r
        simp only [commit, hm, hl, hn, Function.update_same]
        rw [this]
        unfold isub iadd wrap
        omega
      · simp [commit, Function.update_noteq hc, hm, hl, hn]
        exact hinv c' r
    refine ⟨fun c' r _ => hcons c' r, fun _ => hcons, ?_⟩
    rintro ⟨-, hz⟩
    obtain ⟨r, hr⟩ := hneed
    exact absurd (hz r) hr
  | released t havail hb hneed =>
    obtain ⟨-, hm, hl, hn, -⟩ := (bankers_algorithm_frame s c req _ _ hb).1
    refine ⟨?_, ?_, ?_⟩
    · intro c' r hc
      simp [release_resources, set_completed, commit, Function.update_noteq hc, hm, hl, hn]
      exact hinv c' r
    · rintro (h1 | ⟨r, hr⟩)
      · exact absurd h1 (by decide)
      · exact absurd (hneed r) hr
    · rintro - r
      simp [release_resources, set_completed, commit, hm, hn, hneed r]

/-- Witness of the amended C5: the granted request `[2]` of customer `0` in
`stateFresh`. -/
theorem need_consistency_amended_witness :
    NeedConsistent stateFresh ∧
      ∃ s', request_resources stateFresh 0 (fun _ => 2) = .ok (0, s') ∧
        (∀ c' r, c' ≠ 0 → s'.need c' r = isub (s'.maximum c' r) (s'.allocation c' r)) :=
  ⟨by unfold NeedConsistent; decide, _, rfl,
    (need_consistency_amended stateFresh 0 (fun _ => 2) 0 _
      (by unfold NeedConsistent; decide) rfl).1⟩

/-! ## The grant condition -/

/-- C6 (grant condition).  `request_resources` returns `0` exactly when
`request[r] <= available[r]` for every `r` and `bankers_algorithm` returns `0`
for the request; a request exceeding `available` in some resource is rejected
with `-1`; a request for which `bankers_algorithm` returns `-1` is rejected with
`-1`; and for `R >= 1` the call always returns, with status `0` or `-1`. -/
theorem request_resources_grant_condition (s : State C R) (c : Fin C)
    (req : Fin R → Int) :
    ((∃ s', request_resources s c req = .ok (0, s')) ↔
        ((∀ r, req r ≤ s.available r) ∧ ∃ t, bankers_algorithm s c req = .ok (0, t))) ∧
      ((∃ r, req r > s.available r) → request_resources s c req = .ok (-1, s)) ∧
      (∀ t, (∀ r, req r ≤ s.available r) → bankers_algorithm s c req = .ok (-1, t) →
        request_resources s c req = .ok (-1, t)) ∧
      (0 < R → ∃ st s', request_resources s c req = .ok (st, s') ∧ (st = 0 ∨ st = -1) ∧
        (st = -1 ↔
          ¬ ((∀ r, req r ≤ s.available r) ∧ ∃ t, bankers_algorithm s c req = .ok (0, t)))) := by
  have hiff : (∃ s', request_resources s c req = .ok (0, s')) ↔
      ((∀ r, req r ≤ s.available r) ∧ ∃ t, bankers_algorithm s c req = .ok (0, t)) := by
    constructor
    · rintro ⟨s', h⟩
      obtain ⟨t, havail, hb, -, -⟩ := granted_inv s c req s' h
      exact ⟨havail, t, hb⟩
    · rintro ⟨havail, t, hb⟩
      by_cases hz : ∀ r, isub (s.need c r) (req r) = 0
      · exact ⟨_, (request_resources_outcome s c req _ _).2 (Outcome.released t havail hb hz)⟩
      · push_neg at hz
        exact ⟨_, (request_resources_outcome s c req _ _).2 (Outcome.granted t havail hb hz)⟩
  refine ⟨hiff, request_resources_of_exceeds s c req, ?_, ?_⟩
  · intro t havail hb
    exact (request_resources_outcome s c req _ _).2 (Outcome.notSafe t havail hb)
  · intro hR
    by_cases hex : ∃ r, req r > s.available r
    · refine ⟨-1, s, request_resources_of_exceeds s c req hex, Or.inr rfl, fun _ => ?_, fun _ => rfl⟩
      rintro ⟨havail, -⟩
      obtain ⟨r, hr⟩ := hex
      exact absurd (havail r) (not_le.2 hr)
    · push_neg at hex
      obtain ⟨stb, t, l, hrun, -⟩ := bankers_algorithm_spec hR s c req
      rcases (bankers_algorithm_frame s c req stb t hrun).2 with h0 | h1
      · subst h0
        obtain ⟨s', hs'⟩ := hiff.2 ⟨hex, t, hrun⟩
        refine ⟨0, s', hs', Or.inl rfl, fun h => absurd h (by decide), fun h => ?_⟩
        exact absurd ⟨hex, t, hrun⟩ h
      · subst h1
        refine ⟨-1, t, (request_resources_outcome s c req _ _).2 (Outcome.notSafe t hex hrun),
          Or.inr rfl, fun _ => ?_, fun _ => rfl⟩
        rintro ⟨-, t', ht'⟩
        rw [hrun] at ht'
        injection ht' with ht'
        injection ht' with ht'
        exact absurd ht' (by decide)

/-- Witness of C6: in `stateFresh` the request `[4]` of customer `0` exceeds
`available = [3]` and is rejected, and the request `[1]` is granted. -/
theorem request_resources_grant_condition_witness :
    request_resources stateFresh 0 (fun _ => 4) = .ok (-1, stateFresh) ∧
      ∃ s', request_resources stateFresh 0 (fun _ => 1) = .ok (0, s') :=
  ⟨(request_resources_grant_condition stateFresh 0 (fun _ => 4)).2.1 ⟨0, by decide⟩,
    (request_resources_grant_condition stateFresh 0 (fun _ => 1)).1.2
      ⟨by decide, _, rfl⟩⟩

/-! ## Requests beyond the declared need -/

/-- Counterexample to C7 as stated: in `stateSmallNeed` customer `0` has
`need = [1]` and requests `[3]`; `request_resources` returns `0` and commits the
whole request (`allocation = [3]`, `available = [2]`, `need = [-2]`). -/
theorem exceeds_need_counterexample :
    (fun _ => 3 : Fin 1 → Int) 0 > stateSmallNeed.need 0 0 ∧
      ∃ s', request_resources stateSmallNeed 0 (fun _ => 3) = .ok (0, s') ∧
        s'.allocation 0 0 = 3 ∧ s'.available 0 = 2 ∧ s'.need 0 0 = -2 :=
  ⟨by decide, _, rfl, by decide, by decide, by decide⟩

/-- C7 as amended.  `request_resources` never compares the request with
`need`.  For a request with `request[r] > need[customer][r]` for some `r` (both
of them `int`s, and `+`, `-` the `int` operations): a
call that returns `-1` leaves `available`, `allocation` and `need` unchanged,
and it returns `-1` when the request exceeds `available` in some resource or
`bankers_algorithm` returns `-1`; when the request is within `available` and
`bankers_algorithm` returns `0`, the call returns `0` and commits the whole
request, neither clamped nor partial, without the completion release. -/
theorem exceeds_need_amended (s : State C R) (c : Fin C) (req : Fin R → Int)
    (hint : ∀ r, IsInt (s.need c r) ∧ IsInt (req r))
    (hex : ∃ r, req r > s.need c r) :
    (∀ s', request_resources s c req = .ok (-1, s') →
        s'.available = s.available ∧ s'.allocation = s.allocation ∧ s'.need = s.need) ∧
      ((∃ r, req r > s.available r) → request_resources s c req = .ok (-1, s)) ∧
      (∀ t, (∀ r, req r ≤ s.available r) → bankers_algorithm s c req = .ok (-1, t) →
        request_resources s c req = .ok (-1, t)) ∧
      (∀ t, (∀ r, req r ≤ s.available r) → bankers_algorithm s c req = .ok (0, t) →
        ∃ s', request_resources s c req = .ok (0, s') ∧
          (∀ r, s'.allocation c r = iadd (s.allocation c r) (req r)) ∧
          (∀ r, s'.available r = isub (s.available r) (req r)) ∧
          (∀ r, s'.need c r = isub (s.need c r) (req r)) ∧
          s'.completed = s.completed) := by
  have hnz : ∃ r, isub (s.need c r) (req r) ≠ 0 := by
    obtain ⟨r, hr⟩ := hex
    obtain ⟨h1, h2⟩ := hint r
    refine ⟨r, ?_⟩
    unfold IsInt at h1 h2
    unfold isub wrap
    omega
  refine ⟨?_, request_resources_of_exceeds s c req, ?_, ?_⟩
  · intro s' h
    rcases rejected_inv s c req s' h with ⟨-, rfl⟩ | ⟨-, -, hlive⟩
    · exact ⟨rfl, rfl, rfl⟩
    · exact ⟨hlive.1, hlive.2.2.1, hlive.2.2.2.1⟩
  · intro t havail hb
    exact (request_resources_outcome s c req _ _).2 (Outcome.notSafe t havail hb)
  · intro t havail hb
    obtain ⟨ha, -, hl, hn, hc⟩ := (bankers_algorithm_frame s c req _ _ hb).1
    refine ⟨_, (request_resources_outcome s c req _ _).2 (Outcome.granted t havail hb hnz),
      ?_, ?_, ?_, ?_⟩
    · intro r; simp [commit, hl]
    · intro r; simp [commit, ha]
    · intro r; simp [commit, hn]
    · exact hc

/-- Witness of the amended C7: the request `[3]` of customer `0` in
`stateSmallNeed`. -/
theorem exceeds_need_amended_witness :
    (∃ r, (fun _ => 3 : Fin 1 → Int) r > stateSmallNeed.need 0 r) ∧
      ∃ s', request_resources stateSmallNeed 0 (fun _ => 3) = .ok (0, s') ∧
        (∀ r, s'.allocation 0 r = iadd (stateSmallNeed.allocation 0 r) 3) :=
  ⟨⟨0, by decide⟩,
    ((exceeds_need_amended stateSmallNeed 0 (fun _ => 3) (by unfold IsInt; decide)
      ⟨0, by decide⟩).2.2.2 _
      (by decide) rfl).imp fun _ h => ⟨h.1, h.2.1⟩⟩

/-! ## Rejection, commit and release -/

/-- C8 (rejection atomicity).  Whenever `request_resources` returns `-1`
(the request exceeds `available`, or the oracle reports Unsafe), `available`,
`allocation`, `need`, `maximum` and the completed flags are what they were
before the call. -/
theorem request_resources_reject_unchanged (s : State C R) (c : Fin C)
    (req : Fin R → Int) (s' : State C R)
    (h : request_resources s c req = .ok (-1, s')) :
    s'.available = s.available ∧ s'.allocation = s.allocation ∧ s'.need = s.need ∧
      s'.maximum = s.maximum ∧ s'.completed = s.completed := by
  rcases rejected_inv s c req s' h with ⟨-, rfl⟩ | ⟨-, -, ha, hm, hl, hn, hc⟩
  · exact ⟨rfl, rfl, rfl, rfl, rfl⟩
  · exact ⟨ha, hl, hn, hm, hc⟩

/-- Witness of C8: in `stateStuck` the request `[0]` of customer `0` is rejected
by the oracle. -/
theorem request_resources_reject_unchanged_witness :
    ∃ s', request_resources stateStuck 0 (fun _ => 0) = .ok (-1, s') ∧
      s'.available = stateStuck.available ∧ s'.allocation = stateStuck.allocation ∧
      s'.need = stateStuck.need ∧ s'.maximum = stateStuck.maximum ∧
      s'.completed = stateStuck.completed :=
  ⟨_, rfl, request_resources_reject_unchanged stateStuck 0 (fun _ => 0) _ rfl⟩

/-- C9 (commit effect).  For a call `request_resources(c, request)` that returns
`0` and after which `need[c]` is not all zero: `available`, `allocation[c]` and
`need[c]` are the old values `- request`, `+ request` and `- request` (the
`int` operations of lines 152-154, which are those of the oracle's copy), the
`allocation` and `need` rows of every other customer, the matrix `maximum` and
all completed flags are unchanged. -/
theorem request_resources_commit_effect (s : State C R) (c : Fin C)
    (req : Fin R → Int) (s' : State C R)
    (h : request_resources s c req = .ok (0, s'))
    (hneed : ∃ r, s'.need c r ≠ 0) :
    (∀ r, s'.available r = isub (s.available r) (req r) ∧
        s'.allocation c r = iadd (s.allocation c r) (req r) ∧
        s'.need c r = isub (s.need c r) (req r)) ∧
      (∀ c', c' ≠ c → s'.allocation c' = s.allocation c' ∧ s'.need c' = s.need c') ∧
      s'.maximum = s.maximum ∧ s'.completed = s.completed := by
  obtain ⟨t, -, -, ⟨ha, hm, hl, hn, hc⟩, hcase⟩ := granted_inv s c req s' h
  rcases hcase with ⟨-, rfl⟩ | ⟨hz, rfl⟩
  · refine ⟨fun r => ?_, fun c' hc' => ?_, hm, hc⟩
    · simp [commit, ha, hl, hn]
    · simp [commit, Function.update_noteq hc', hl, hn]
  · exfalso
    obtain ⟨r, hr⟩ := hneed
    apply hr
    simp [release_resources, set_completed, commit, hn, hz r]

/-- Witness of C9: the request `[1]` of customer `0` in `stateFresh`. -/
theorem request_resources_commit_effect_witness :
    ∃ s', request_resources stateFresh 0 (fun _ => 1) = .ok (0, s') ∧
      (∃ r, s'.need 0 r ≠ 0) ∧
      (∀ r, s'.available r = isub (stateFresh.available r) 1 ∧
        s'.allocation 0 r = iadd (stateFresh.allocation 0 r) 1 ∧
        s'.need 0 r = isub (stateFresh.need 0 r) 1) :=
  ⟨_, rfl, ⟨0, by decide⟩,
    (request_resources_commit_effect stateFresh 0 (fun _ => 1) _ rfl ⟨0, by decide⟩).1⟩

/-- C10 (release on completion).  For a call `request_resources(c, request)`
that returns `0`: the call writes `completed[c] = 1` exactly when
`need[c][r] - request[r] = 0` for every `r` (the other flags, and `completed[c]`
otherwise, keep their values); and in that case `allocation[c][r] = 0` and
`available[r]` is the old `available[r] + allocation[c][r]` for every `r`
(`+` and `-` being the `int` operations). -/
theorem request_resources_release_on_completion (s : State C R) (c : Fin C)
    (req : Fin R → Int) (s' : State C R)
    (h : request_resources s c req = .ok (0, s')) :
    (s'.completed =
        if ∀ r, isub (s.need c r) (req r) = 0 then Function.update s.completed c true
        else s.completed) ∧
      (s.completed c = false → (s'.completed c = true ↔ ∀ r, isub (s.need c r) (req r) = 0)) ∧
      ((∀ r, isub (s.need c r) (req r) = 0) →
        ∀ r, s'.allocation c r = 0 ∧ s'.available r = iadd (s.available r) (s.allocation c r)) := by
  obtain ⟨t, -, -, ⟨ha, hm, hl, hn, hc⟩, hcase⟩ := granted_inv s c req s' h
  rcases hcase with ⟨hnz, rfl⟩ | ⟨hz, rfl⟩
  · have hnot : ¬ ∀ r, isub (s.need c r) (req r) = 0 := by
      push_neg
      exact hnz
    refine ⟨?_, ?_, fun hz => absurd hz hnot⟩
    · rw [if_neg hnot]
      exact hc
    · intro hfalse
      have : (commit t c req).completed c = false := by
        show t.completed c = false
        rw [hc]; exact hfalse
      rw [this]
      simp [hnot]
  · refine ⟨?_, ?_, ?_⟩
    · rw [if_pos hz]
      simp [release_resources, set_completed, commit, hc]
    · intro _
      simp [release_resources, set_completed, commit, hz]
    · intro _ r
      simp only [release_resources, set_completed, commit, ha, hl, Function.update_same,
        true_and]
      unfold iadd isub wrap
      omega

/-- Witness of C10: the request `[2]` of customer `0` in `stateFresh`, which
exhausts the customer's need. -/
theorem request_resources_release_on_completion_witness :
    ∃ s', request_resources stateFresh 0 (fun _ => 2) = .ok (0, s') ∧
      (stateFresh.completed 0 = false →
        (s'.completed 0 = true ↔ ∀ r, isub (stateFresh.need 0 r) 2 = 0)) ∧
      ((∀ r, isub (stateFresh.need 0 r) 2 = 0) →
        ∀ r, s'.allocation 0 r = 0 ∧
          s'.available r = iadd (stateFresh.available r) (stateFresh.allocation 0 r)) :=
  ⟨_, rfl, (request_resources_release_on_completion stateFresh 0 (fun _ => 2) _ rfl).2⟩

/-! ## Purity of the oracle -/

/-- C11 (oracle purity).  Whatever status `bankers_algorithm` returns,
`available`, `allocation`, `need`, `maximum` and the completed flags are what
they were before the call; only the scratch arrays and `safeSequence` can
differ. -/
theorem bankers_algorithm_pure (s : State C R) (c : Fin C) (req : Fin R → Int)
    (st : Int) (s' : State C R) (h : bankers_algorithm s c req = .ok (st, s')) :
    s'.available = s.available ∧ s'.allocation = s.allocation ∧ s'.need = s.need ∧
      s'.maximum = s.maximum ∧ s'.completed = s.completed := by
  obtain ⟨ha, hm, hl, hn, hc⟩ := (bankers_algorithm_frame s c req st s' h).1
  exact ⟨ha, hl, hn, hm, hc⟩

/-- Witness of C11: a call that returns `-1` (in `stateStuck`). -/
theorem bankers_algorithm_pure_witness :
    ∃ s', bankers_algorithm stateStuck 0 (fun _ => 0) = .ok (-1, s') ∧
      s'.available = stateStuck.available ∧ s'.allocation = stateStuck.allocation ∧
      s'.need = stateStuck.need ∧ s'.maximum = stateStuck.maximum ∧
      s'.completed = stateStuck.completed :=
  ⟨_, rfl, bankers_algorithm_pure stateStuck 0 (fun _ => 0) (-1) _ rfl⟩

/-! ## The two examples of the specification -/

/-- Counterexample to C12 as stated: in `stateTight` the request `[2]` of
customer `0` is not rejected.  `bankers_algorithm` returns `0` for it, never
`-1`, and `request_resources` returns `0` and changes the state
(`available` becomes `[3]`). -/
theorem tight_example_counterexample :
    (∃ t, bankers_algorithm stateTight 0 (fun _ => 2) = .ok (0, t)) ∧
      (¬ ∃ t, bankers_algorithm stateTight 0 (fun _ => 2) = .ok (-1, t)) ∧
      (¬ ∃ s', request_resources stateTight 0 (fun _ => 2) = .ok (-1, s')) ∧
      ∃ s', request_resources stateTight 0 (fun _ => 2) = .ok (0, s') ∧
        s'.available 0 = 3 ∧ stateTight.available 0 = 2 := by
  refine ⟨⟨_, rfl⟩, ?_, ?_, _, rfl, by decide, by decide⟩
  · rintro ⟨t, ht⟩
    have h0 : ∃ t0, bankers_algorithm stateTight 0 (fun _ => 2) = .ok (0, t0) := ⟨_, rfl⟩
    obtain ⟨t0, ht0⟩ := h0
    rw [ht0] at ht
    injection ht with ht
    injection ht with ht
    exact absurd ht (by decide)
  · rintro ⟨t, ht⟩
    have h0 : ∃ t0, request_resources stateTight 0 (fun _ => 2) = .ok (0, t0) := ⟨_, rfl⟩
    obtain ⟨t0, ht0⟩ := h0
    rw [ht0] at ht
    injection ht with ht
    injection ht with ht
    exact absurd ht (by decide)

/-- C12 as amended.  In `stateTight` (`available = [2]`, `maximum = [3],[3]`,
`allocation = [1],[1]`, `need = [2],[2]`) the request `[2]` of customer `0` is
granted: `bankers_algorithm` returns `0` with the safe sequence `0, 1`, and
`request_resources` returns `0` and, through the completion release, leaves
`available = [3]`, `allocation[0] = [0]`, `need[0] = [0]`, `completed[0]` set,
and customer `1` as it was. -/
theorem tight_example_amended :
    (∃ t, bankers_algorithm stateTight 0 (fun _ => 2) = .ok (0, t) ∧
        t.safeSequence 0 = 0 ∧ t.safeSequence 1 = 1) ∧
      ∃ s', request_resources stateTight 0 (fun _ => 2) = .ok (0, s') ∧
        s'.available 0 = 3 ∧ s'.allocation 0 0 = 0 ∧ s'.need 0 0 = 0 ∧
        s'.completed 0 = true ∧ s'.allocation 1 0 = 1 ∧ s'.need 1 0 = 2 ∧
        s'.completed 1 = false :=
  ⟨⟨_, rfl, by decide, by decide⟩,
    _, rfl, by decide, by decide, by decide, by decide, by decide, by decide, by decide⟩

/-- C13 (deterministic safe grant).  In `stateFresh` (`available = [3]`,
`maximum = [2],[2]`, `allocation = [0],[0]`, `need = [2],[2]`),
`request_resources(0, [2])` returns `0` and leaves `available = [3]`,
`allocation[0] = [0]`, `need[0] = [0]` and `completed[0]` set; on that state
`request_resources(1, [2])` returns `0` as well. -/
theorem fresh_example_granted :
    ∃ s₁, request_resources stateFresh 0 (fun _ => 2) = .ok (0, s₁) ∧
      s₁.available 0 = 3 ∧ s₁.allocation 0 0 = 0 ∧ s₁.need 0 0 = 0 ∧
      s₁.completed 0 = true ∧
      ∃ s₂, request_resources s₁ 1 (fun _ => 2) = .ok (0, s₂) :=
  ⟨_, rfl, by decide, by decide, by decide, by decide, _, rfl⟩

/-! ## Invariants of the reachable states -/

/-- A completed customer holds nothing and needs nothing. -/
theorem completed_rows_zero_step (s : State C R) (c : Fin C) (req : Fin R → Int)
    (st : Int) (s' : State C R)
    (hinv : ∀ x, s.completed x = true → ∀ r, s.allocation x r = 0 ∧ s.need x r = 0)
    (hreq : ∀ r, 0 ≤ req r ∧ req r ≤ s.need c r)
    (h : request_resources s c req = .ok (st, s')) :
    (∀ x, s.completed x = true → s'.completed x = true) ∧
      ∀ x, s'.completed x = true → ∀ r, s'.allocation x r = 0 ∧ s'.need x r = 0 := by
  rw [request_resources_outcome] at h
  cases h with
  | insufficient i hi => exact ⟨fun _ hx => hx, hinv⟩
  | notSafe t havail hb =>
    obtain ⟨-, -, hl, hn, hc⟩ := (bankers_algorithm_frame s c req _ _ hb).1
    refine ⟨fun x hx => by rw [hc]; exact hx, fun x hx r => ?_⟩
    rw [hl, hn]
    exact hinv x (by rw [← hc]; exact hx) r
  | granted t havail hb hneed =>
    obtain ⟨-, -, hl, hn, hc⟩ := (bankers_algorithm_frame s c req _ _ hb).1
    refine ⟨fun x hx => ?_, fun x hx r => ?_⟩
    · show t.completed x = true
      rw [hc]; exact hx
    · have hx' : s.completed x = true := by rw [← hc]; exact hx
      by_cases hxc : x = c
      · subst hxc
        have h1 := hinv x hx' r
        have h2 := hreq r
        have hr0 : req r = 0 := by omega
        simp [commit, hl, hn, h1.1, h1.2, hr0, iadd, isub, wrap]
      · simp [commit, Function.update_noteq hxc, hl, hn]
        exact hinv x hx' r
  | released t havail hb hneed =>
    obtain ⟨-, -, hl, hn, hc⟩ := (bankers_algorithm_frame s c req _ _ hb).1
    refine ⟨fun x hx => ?_, fun x hx r => ?_⟩
    · by_cases hxc : x = c
      · subst hxc
        simp [release_resources, set_completed, commit]
      · simp [release_resources, set_completed, commit, Function.update_noteq hxc, hc, hx]
    · by_cases hxc : x = c
      · subst hxc
        simp [release_resources, set_completed, commit, hn, hneed r]
      · have hx' : s.completed x = true := by
          simpa [release_resources, set_completed, commit, Function.update_noteq hxc, hc]
            using hx
        simp [release_resources, set_completed, commit, Function.update_noteq hxc, hl, hn]
        exact hinv x hx' r

theorem completed_rows_zero_reach (s s' : State C R)
    (hinv : ∀ x, s.completed x = true → ∀ r, s.allocation x r = 0 ∧ s.need x r = 0)
    (hreach : ReachableWithin s s') :
    (∀ x, s.completed x = true → s'.completed x = true) ∧
      ∀ x, s'.completed x = true → ∀ r, s'.allocation x r = 0 ∧ s'.need x r = 0 := by
  induction hreach with
  | init => exact ⟨fun _ hx => hx, hinv⟩
  | step u c req st u' _ hreq h ih =>
    obtain ⟨h1, h2⟩ := completed_rows_zero_step u c req st u' ih.2 hreq h
    exact ⟨fun x hx => h1 x (ih.1 x hx), h2⟩

/-- C14 (no double release).  In every state `s` reached from an initial state
(nothing allocated, `need = maximum >= 0`, no flag set) by calls of
`request_resources` with `0 <= request[r] <= need[customer][r]` at call time, a
customer whose completed flag is set has `allocation` and `need` rows all zero;
and in every state reached later from `s` in the same way the flag is still set
and the rows are still zero. -/
theorem no_double_release (s₀ s : State C R) (h0 : Initial s₀)
    (hreach : ReachableWithin s₀ s) :
    (∀ c, s.completed c = true → ∀ r, s.allocation c r = 0 ∧ s.need c r = 0) ∧
      ∀ s', ReachableWithin s s' → ∀ c, s.completed c = true →
        s'.completed c = true ∧ ∀ r, s'.allocation c r = 0 ∧ s'.need c r = 0 := by
  have hinv0 : ∀ x, s₀.completed x = true → ∀ r, s₀.allocation x r = 0 ∧ s₀.need x r = 0 := by
    intro x hx
    rw [h0.2.2.2 x] at hx
    exact Bool.noConfusion hx
  have hs := (completed_rows_zero_reach s₀ s hinv0 hreach).2
  refine ⟨hs, fun s' hlater c hc => ?_⟩
  obtain ⟨h1, h2⟩ := completed_rows_zero_reach s s' hs hlater
  exact ⟨h1 c hc, h2 c (h1 c hc)⟩

/-- Witness of C14: from `stateFresh`, customer `0` is granted `[2]` and
completes; later customer `1` is granted `[1]`. -/
theorem no_double_release_witness :
    Initial stateFresh ∧
      ∃ s₁, request_resources stateFresh 0 (fun _ => 2) = .ok (0, s₁) ∧
        s₁.completed 0 = true ∧
        ∃ s₂, request_resources s₁ 1 (fun _ => 1) = .ok (0, s₂) ∧
          (s₂.completed 0 = true ∧ ∀ r, s₂.allocation 0 r = 0 ∧ s₂.need 0 r = 0) :=
  ⟨by unfold Initial; decide, _, rfl, by decide, _, rfl,
    (no_double_release stateFresh _ (by unfold Initial; decide)
      (ReachableWithin.step stateFresh 0 (fun _ => 2) 0 _ ReachableWithin.init
        (by decide) rfl)).2 _
      (ReachableWithin.step _ 1 (fun _ => 1) 0 _ ReachableWithin.init (by decide) rfl)
      0 (by decide)⟩

/-- Counterexample to C15 as stated: in `stateBrimOne`
(`available = [2147483647]`, `allocation = [1]`, `need = [0]`) every entry is
`>= 0` and the request `[0]` of customer `0` lies in `0..need`;
`request_resources` returns `0` and the completion release (line 185) leaves
`available = [-2147483648]`. -/
theorem request_resources_nonneg_counterexample :
    (∀ r, 0 ≤ stateBrimOne.available r) ∧ (∀ c' r, 0 ≤ stateBrimOne.allocation c' r) ∧
      (∀ c' r, 0 ≤ stateBrimOne.need c' r) ∧
      (∀ r, 0 ≤ (fun _ => 0 : Fin 1 → Int) r ∧
        (fun _ => 0 : Fin 1 → Int) r ≤ stateBrimOne.need 0 r) ∧
      ∃ s', request_resources stateBrimOne 0 (fun _ => 0) = .ok (0, s') ∧
        s'.available 0 = -2147483648 ∧ ¬ ∀ r, 0 ≤ s'.available r :=
  ⟨by decide, by decide, by decide, by decide, _, rfl, by decide, by decide⟩

/-- C15 as amended (non-negativity).  From a state of `int` cells in which
every entry of `available`, `allocation` and `need` is `>= 0` and whose supply
fits in an `int` (for every resource, the sum of `allocation[c][r]` over all
customers plus `available[r]` is at most `2147483647`), a returning call
`request_resources(c, request)` with `0 <= request[r] <= need[c][r]` for every
`r` leaves a state in which every entry of `allocation`, `need` and `available`
is `>= 0`. -/
theorem request_resources_nonneg_amended (s : State C R) (c : Fin C)
    (req : Fin R → Int) (st : Int) (s' : State C R)
    (havl : ∀ r, 0 ≤ s.available r)
    (halloc : ∀ c' r, 0 ≤ s.allocation c' r)
    (hneed : ∀ c' r, 0 ≤ s.need c' r)
    (hneedint : ∀ c' r, s.need c' r ≤ 2147483647)
    (hfit : ∀ r, supply s r ≤ 2147483647)
    (hreq : ∀ r, 0 ≤ req r ∧ req r ≤ s.need c r)
    (h : request_resources s c req = .ok (st, s')) :
    (∀ c' r, 0 ≤ s'.allocation c' r) ∧ (∀ c' r, 0 ≤ s'.need c' r) ∧
      ∀ r, 0 ≤ s'.available r := by
  have hneed' : ∀ r, 0 ≤ isub (s.need c r) (req r) := fun r => by
    have h1 := hreq r
    have h2 := hneedint c r
    unfold isub wrap
    omega
  rw [request_resources_outcome] at h
  cases h with
  | insufficient i hi => exact ⟨halloc, hneed, havl⟩
  | notSafe t havail hb =>
    obtain ⟨ha, -, hl, hn, -⟩ := (bankers_algorithm_frame s c req _ _ hb).1
    rw [ha, hl, hn]
    exact ⟨halloc, hneed, havl⟩
  | granted t havail hb hnz =>
    obtain ⟨ha, -, hl, hn, -⟩ := (bankers_algorithm_frame s c req _ _ hb).1
    have hex := grant_exact s c req halloc (fun r => (hreq r).1) havail hfit
    refine ⟨fun c' r => ?_, fun c' r => ?_, fun r => ?_⟩
    · by_cases hc : c' = c
      · subst hc
        have := halloc c' r
        have := (hreq r).1
        simp only [commit, hl, Function.update_same]
        rw [(hex r).2.1]
        omega
      · simp only [commit, Function.update_noteq hc, hl]
        exact halloc c' r
    · by_cases hc : c' = c
      · subst hc
        simp only [commit, hn, Function.update_same]
        exact hneed' r
      · simp only [commit, Function.update_noteq hc, hn]
        exact hneed c' r
    · have := havail r
      simp only [commit, ha]
      rw [(hex r).1]
      omega
  | released t havail hb hz =>
    obtain ⟨ha, -, hl, hn, -⟩ := (bankers_algorithm_frame s c req _ _ hb).1
    have hex := grant_exact s c req halloc (fun r => (hreq r).1) havail hfit
    refine ⟨fun c' r => ?_, fun c' r => ?_, fun r => ?_⟩
    · by_cases hc : c' = c
      · subst hc
        simp [release_resources]
      · simp only [release_resources, set_completed, commit, Function.update_noteq hc, hl,
          ne_eq, not_false_eq_true]
        exact halloc c' r
    · by_cases hc : c' = c
      · subst hc
        simp only [release_resources, set_completed, commit, hn, Function.update_same]
        exact hneed' r
      · simp only [release_resources, set_completed, commit, Function.update_noteq hc, hn,
          ne_eq, not_false_eq_true]
        exact hneed c' r
    · have := havl r
      have := halloc c r
      simp only [release_resources, set_completed, commit, ha, hl, Function.update_same]
      rw [(hex r).2.2.1]
      omega

/-- Witness of the amended C15: the granted request `[1]` of customer `1` in
`stateFresh`. -/
theorem request_resources_nonneg_amended_witness :
    ∃ s', request_resources stateFresh 1 (fun _ => 1) = .ok (0, s') ∧
      (∀ c' r, 0 ≤ s'.allocation c' r) ∧ (∀ c' r, 0 ≤ s'.need c' r) ∧
      ∀ r, 0 ≤ s'.available r :=
  ⟨_, rfl, request_resources_nonneg_amended stateFresh 1 (fun _ => 1) 0 _
    (by decide) (by decide) (by decide) (by decide) (by unfold supply; decide)
    (by decide) rfl⟩

/-! ## Rounds of the safety loop -/

/-- One selecting round keeps the loop invariant, and its write to
`safeSequence[count]` is within bounds. -/
theorem loopInv_step (hR : 0 < R) (a0 : Fin R → Int) (s : State C R)
    (complete : Fin C → Bool) (count : Nat) (l : List (Fin C)) (customer : Fin C)
    (hinv : LoopInv a0 s complete count l) (hsel : select s complete = some customer) :
    ∃ h : count < C,
      LoopInv a0
        { s with
          safeSequence := Function.update s.safeSequence ⟨count, h⟩ customer
          available_tmp := reclaim s customer }
        (Function.update complete customer true) (count + 1) (l ++ [customer]) := by
  have hv : valid s complete customer = true := List.find?_some hsel
  obtain ⟨hcf, hneed⟩ := (valid_eq_true_iff hR s complete customer).1 hv
  have hnot : customer ∉ l := fun hmem => by
    rw [(hinv.compl customer).2 hmem] at hcf
    exact Bool.noConfusion hcf
  have hnd : (l ++ [customer]).Nodup := by
    rw [List.nodup_append]
    exact ⟨hinv.nodup, List.nodup_singleton _, by simpa using hnot⟩
  have hlen : count < C := by
    have h1 := length_le_of_nodup hnd
    have h2 := hinv.len
    rw [List.length_append, List.length_singleton] at h1
    omega
  refine ⟨hlen, by simp [hinv.len], hnd, ?_, ?_, ?_, ?_⟩
  · intro c
    by_cases hc : c = customer
    · subst hc; simp
    · simp [Function.update_noteq hc, hinv.compl c, hc]
  · intro i hi
    by_cases hic : i = ⟨count, hlen⟩
    · subst hic
      simp [← hinv.len]
    · have hlt : i.val < count := by
        have : i.val ≠ count := fun h => hic (Fin.ext h)
        omega
      simp only [Function.update_noteq hic]
      rw [List.getElem?_append_left (by rw [hinv.len]; exact hlt)]
      exact hinv.seq i hlt
  · show reclaim s customer = pool a0 s.allocation_tmp (l ++ [customer])
    rw [pool_append, ← hinv.avail]
    rfl
  · show ValidOrder a0 s.allocation_tmp s.need_tmp (l ++ [customer])
    rw [validOrder_append]
    refine ⟨hinv.order, ?_, trivial⟩
    rw [← hinv.avail]
    exact hneed

/-- The customers selected by the remaining rounds are distinct and differ from
those selected before. -/
theorem selections_nodup (hR : 0 < R) (a0 : Fin R → Int) :
    ∀ (fuel : Nat) (s : State C R) (complete : Fin C → Bool) (count : Nat)
      (l : List (Fin C)), LoopInv a0 s complete count l →
      (l ++ selections fuel s complete count).Nodup := by
  intro fuel
  induction fuel with
  | zero =>
    intro s complete count l hinv
    simpa [selections] using hinv.nodup
  | succ fuel ih =>
    intro s complete count l hinv
    unfold selections
    cases hsel : select s complete with
    | none => simpa using hinv.nodup
    | some customer =>
      obtain ⟨hlt, hinv'⟩ := loopInv_step hR a0 s complete count l customer hinv hsel
      simp only [hlt, dite_true]
      have := ih _ _ _ _ hinv'
      simpa using this

/-- The loop returns in the round after its last selecting round. -/
theorem safety_loop_rounds :
    ∀ (fuel : Nat) (s : State C R) (complete : Fin C → Bool) (count : Nat)
      (r : Int × State C R), safety_loop fuel s complete count = .ok r →
      safety_loop ((selections fuel s complete count).length + 1) s complete count = .ok r := by
  intro fuel
  induction fuel with
  | zero => intro s complete count r h; simp [safety_loop] at h
  | succ fuel ih =>
    intro s complete count r h
    unfold safety_loop at h
    unfold selections
    cases hsel : select s complete with
    | none =>
      rw [hsel] at h
      simp only [List.length_nil]
      unfold safety_loop
      rw [hsel]
      exact h
    | some customer =>
      rw [hsel] at h
      by_cases hlt : count < C
      · simp only [hlt, dite_true] at h ⊢
        simp only [List.length_cons]
        unfold safety_loop
        rw [hsel]
        simp only [hlt, dite_true]
        exact ih _ _ _ _ h
      · simp [hlt] at h

/-- C17 (lowest-index selection).  For `R >= 1`, in a round of the loop: the
customer selected is the smallest index that is not yet finished and whose
`need_tmp` row is `<= available_tmp` in every resource; none is selected exactly
when no such index exists, and the loop then returns without touching the
state; a selected customer is written to `safeSequence[count]`, and the next
round runs with that customer's whole `allocation_tmp` row added to
`available_tmp`. -/
theorem lowest_index_selection (hR : 0 < R) (s : State C R)
    (complete : Fin C → Bool) :
    (∀ c, select s complete = some c ↔
        (complete c = false ∧ ∀ r, s.need_tmp c r ≤ s.available_tmp r) ∧
          ∀ i, i < c → ¬ (complete i = false ∧ ∀ r, s.need_tmp i r ≤ s.available_tmp r)) ∧
      (select s complete = none ↔
        ∀ i, ¬ (complete i = false ∧ ∀ r, s.need_tmp i r ≤ s.available_tmp r)) ∧
      (select s complete = none →
        ∀ fuel count, ∃ st, safety_loop (fuel + 1) s complete count = .ok (st, s)) ∧
      ∀ c, select s complete = some c → ∀ (fuel count : Nat) (h : count < C),
        ∃ s₁, safety_loop (fuel + 1) s complete count =
            safety_loop fuel s₁ (Function.update complete c true) (count + 1) ∧
          s₁.safeSequence ⟨count, h⟩ = c ∧
          (∀ k, s₁.available_tmp k = iadd (s.available_tmp k) (s.allocation_tmp c k)) ∧
          s₁.allocation_tmp = s.allocation_tmp ∧ s₁.need_tmp = s.need_tmp := by
  have hvalid : ∀ i, valid s complete i = false ↔
      ¬ (complete i = false ∧ ∀ r, s.need_tmp i r ≤ s.available_tmp r) := by
    intro i
    rw [← valid_eq_true_iff hR s complete i]
    simp
  refine ⟨fun c => ?_, ?_, ?_, ?_⟩
  · rw [select_eq_some_iff, valid_eq_true_iff hR]
    constructor
    · rintro ⟨h1, h2⟩
      exact ⟨h1, fun i hi => (hvalid i).1 (h2 i hi)⟩
    · rintro ⟨h1, h2⟩
      exact ⟨h1, fun i hi => (hvalid i).2 (h2 i hi)⟩
  · rw [select_eq_none_iff]
    exact forall_congr' hvalid
  · intro hsel fuel count
    unfold safety_loop
    rw [hsel]
    by_cases hall : ((List.finRange C).all fun i => complete i) = true
    · exact ⟨0, by simp [hall]⟩
    · exact ⟨-1, by simp [hall]⟩
  · intro c hsel fuel count h
    refine ⟨{ s with
        safeSequence := Function.update s.safeSequence ⟨count, h⟩ c
        available_tmp := reclaim s c }, ?_, by simp, fun k => rfl, rfl, rfl⟩
    conv_lhs => unfold safety_loop
    rw [hsel]
    simp only [h, dite_true]

/-- Witness of C17: the first round of the oracle in `stateFresh` for the
request `[1]` of customer `1` selects customer `0`. -/
theorem lowest_index_selection_witness :
    select (hypothetical stateFresh 1 fun _ => 1) (fun _ => false) = some 0 ∧
      ∀ i : Fin 2, i < 0 →
        ¬ ((fun _ => false : Fin 2 → Bool) i = false ∧
          ∀ r, (hypothetical stateFresh 1 fun _ => 1).need_tmp i r ≤
            (hypothetical stateFresh 1 fun _ => 1).available_tmp r) :=
  ⟨by decide,
    (((lowest_index_selection (by decide) (hypothetical stateFresh 1 fun _ => 1)
      (fun _ => false)).1 0).1 (by decide)).2⟩

/-! ## Degenerate dimensions, termination and bounds -/

/-- C18 (degenerate dimensions), evaluated on the code.  With `C = 0` the loop
returns `0` in its first round and leaves the state as it is.  With `R = 0` and
at least one customer, `bankers_algorithm` returns no status: `valid` stays `1`
in every round, so the loop keeps selecting until it writes
`safeSequence[count]` with `count >= C`; so it is for one customer in
`stateNoResource`. -/
theorem degenerate_dimensions :
    (∀ (R fuel count : Nat) (s : State 0 R) (complete : Fin 0 → Bool),
        safety_loop (fuel + 1) s complete count = .ok (0, s)) ∧
      (∀ (C : Nat) (s : State C 0) (c : Fin C) (req : Fin 0 → Int),
        bankers_algorithm s c req = .error .outOfBounds) ∧
      bankers_algorithm stateNoResource 0 (fun _ => 0) = .error .outOfBounds := by
  refine ⟨?_, ?_, rfl⟩
  · intro R fuel count s complete
    unfold safety_loop
    simp [select, List.finRange]
  · intro C s c req
    obtain ⟨e, he⟩ := safety_loop_zero_resources rfl c.pos (C + 1)
      (hypothetical s c req) (fun _ => false) 0
    have hfuel := bankers_algorithm_fuel s c req
    unfold bankers_algorithm at hfuel ⊢
    rw [he] at hfuel ⊢
    cases e with
    | outOfBounds => rfl
    | outOfFuel => exact absurd rfl hfuel

/-- C19 (termination and bounds).  For `R >= 1` and any `C`: from any scratch
state the loop started as `bankers_algorithm` starts it returns a status, `0` or
`-1`, within `C + 1` rounds and without writing `safeSequence` out of bounds;
the customers it selects are pairwise distinct, at most `C` of them, and the
loop returns in the round after the last selection.  In particular every call
of `bankers_algorithm` returns. -/
theorem oracle_terminates (hR : 0 < R) (s : State C R) :
    (∃ st s', safety_loop (C + 1) s (fun _ => false) 0 = .ok (st, s') ∧
        (st = 0 ∨ st = -1) ∧
        safety_loop ((selections (C + 1) s (fun _ => false) 0).length + 1) s
          (fun _ => false) 0 = .ok (st, s')) ∧
      (selections (C + 1) s (fun _ => false) 0).Nodup ∧
      (selections (C + 1) s (fun _ => false) 0).length ≤ C ∧
      ∀ (c : Fin C) (req : Fin R → Int),
        ∃ st s', bankers_algorithm s c req = .ok (st, s') ∧ (st = 0 ∨ st = -1) := by
  have hinv : ∀ u : State C R, LoopInv u.available_tmp u (fun _ => false) 0 [] :=
    fun u => ⟨rfl, List.nodup_nil, by simp, by simp, rfl, trivial⟩
  have hnd : (selections (C + 1) s (fun _ => false) 0).Nodup := by
    simpa using selections_nodup hR s.available_tmp (C + 1) s (fun _ => false) 0 [] (hinv s)
  refine ⟨?_, hnd, length_le_of_nodup hnd, ?_⟩
  · obtain ⟨st, s', l, hrun, -⟩ :=
      safety_loop_spec hR s.available_tmp (C + 1) s (fun _ => false) 0 [] (hinv s) (by omega)
    exact ⟨st, s', hrun, (safety_loop_frame _ _ _ _ _ _ hrun).2,
      safety_loop_rounds _ _ _ _ _ hrun⟩
  · intro c req
    obtain ⟨st, s', l, hrun, -⟩ := bankers_algorithm_spec hR s c req
    exact ⟨st, s', hrun, (bankers_algorithm_frame s c req st s' hrun).2⟩

/-- Witness of C19: the oracle in `stateStuck`, one resource and two
customers. -/
theorem oracle_terminates_witness :
    (selections (2 + 1) stateStuck (fun _ => false) 0).length ≤ 2 ∧
      ∃ st s', bankers_algorithm stateStuck 0 (fun _ => 0) = .ok (st, s') ∧
        (st = 0 ∨ st = -1) :=
  ⟨(oracle_terminates (by decide) stateStuck).2.2.1,
    (oracle_terminates (by decide) stateStuck).2.2.2 0 (fun _ => 0)⟩

/-! ## Monotonicity in the available vector -/

theorem exactOrder_mono (alloc need : Fin C → Fin R → Int) :
    ∀ (l : List (Fin C)) (a a' : Fin R → Int), (∀ r, a r ≤ a' r) →
      ExactOrder a alloc need l → ExactOrder a' alloc need l := by
  intro l
  induction l with
  | nil => intro a a' _ _; trivial
  | cons x rest ih =>
    intro a a' hle hv
    refine ⟨fun r => le_trans (hv.1 r) (hle r), ih _ _ (fun r => ?_) hv.2⟩
    show a r + alloc x r ≤ a' r + alloc x r
    have := hle r
    omega

/-- Counterexample to C20 as stated: `stateFive` and `stateBrim` have the same
non-negative allocation matrix (`[1],[0]`) and the same need matrix
(`[0],[5]`), `available = [5]` in the first and `[2147483647]` in the second;
for the request `[0]` of customer `0`, `bankers_algorithm` returns `0` on the
first state and `-1` on the second (line 238 overflows). -/
theorem bankers_algorithm_monotone_counterexample :
    stateBrim.allocation = stateFive.allocation ∧ stateBrim.need = stateFive.need ∧
      (∀ c' r, 0 ≤ stateFive.allocation c' r) ∧
      (∀ r, 0 ≤ stateFive.allocation 0 r + (fun _ => 0 : Fin 1 → Int) r) ∧
      (∀ r, stateFive.available r ≤ stateBrim.available r) ∧
      (∃ t₁, bankers_algorithm stateFive 0 (fun _ => 0) = .ok (0, t₁)) ∧
      ∃ t₂, bankers_algorithm stateBrim 0 (fun _ => 0) = .ok (-1, t₂) :=
  ⟨rfl, rfl, by decide, by decide, by decide, ⟨_, rfl⟩, _, rfl⟩

/-- C20 as amended (monotonicity in `available`).  For `R >= 1`, two states
with the same non-negative allocation matrix and the same need matrix,
`available` of the first `<=` `available` of the second in every resource,
`allocation[customer] + request` (the `int` sum) non-negative, and no overflow
in the check of either state (`available1[r] - request[r] >= -2147483648`, and
`available2[r] - request[r]` plus the post-grant allocations of all customers is
at most `2147483647`): when `bankers_algorithm` returns `0` on the first state
it returns `0` on the second. -/
theorem bankers_algorithm_monotone_amended (hR : 0 < R) (s₁ s₂ : State C R) (c : Fin C)
    (req : Fin R → Int) (t₁ : State C R)
    (hsame : s₂.allocation = s₁.allocation ∧ s₂.need = s₁.need)
    (halloc : ∀ c' r, 0 ≤ s₁.allocation c' r)
    (hreq : ∀ r, 0 ≤ iadd (s₁.allocation c r) (req r))
    (havail : ∀ r, s₁.available r ≤ s₂.available r)
    (hlo : ∀ r, -2147483648 ≤ s₁.available r - req r)
    (hfit : ∀ r, (∑ c', postGrantAllocation s₂ c req c' r) + (s₂.available r - req r) ≤
      2147483647)
    (h : bankers_algorithm s₁ c req = .ok (0, t₁)) :
    ∃ t₂, bankers_algorithm s₂ c req = .ok (0, t₂) := by
  obtain ⟨l, -, hperm, hvalid⟩ := order_of_safe hR s₁ c req t₁ h
  obtain ⟨hl, hn⟩ := hsame
  have e2 : postGrantAllocation s₂ c req = postGrantAllocation s₁ c req := by
    unfold postGrantAllocation; rw [hl]
  have e3 : postGrantNeed s₂ c req = postGrantNeed s₁ c req := by
    unfold postGrantNeed; rw [hn]
  have hnn := postGrantAllocation_nonneg s₁ c req halloc hreq
  have hsum : ∀ r, 0 ≤ ∑ c', postGrantAllocation s₁ c req c' r :=
    fun r => Finset.sum_nonneg (fun c' _ => hnn c' r)
  rw [e2] at hfit
  have ea1 : ∀ r, postGrantAvailable s₁ req r = s₁.available r - req r := fun r => by
    have h1 := hlo r
    have h2 := hfit r
    have h3 := hsum r
    have h4 := havail r
    unfold postGrantAvailable isub wrap
    omega
  have ea2 : ∀ r, postGrantAvailable s₂ req r = s₂.available r - req r := fun r => by
    have h1 := hlo r
    have h2 := hfit r
    have h3 := hsum r
    have h4 := havail r
    unfold postGrantAvailable isub wrap
    omega
  have hfit₁ : ∀ r, (∑ c', postGrantAllocation s₁ c req c' r) + postGrantAvailable s₁ req r ≤
      2147483647 := fun r => by
    rw [ea1 r]
    have h2 := hfit r
    have h4 := havail r
    omega
  have hfit₂ : ∀ r, (∑ c', postGrantAllocation s₁ c req c' r) + postGrantAvailable s₂ req r ≤
      2147483647 := fun r => by
    rw [ea2 r]
    exact hfit r
  have hlnd := ((perm_finRange_iff l).1 hperm).1
  have hexact₁ : ExactOrder (postGrantAvailable s₁ req) (postGrantAllocation s₁ c req)
      (postGrantNeed s₁ c req) l :=
    (pool_eq_exactPool_of_fit _ _ _ hnn (postGrantAvailable_ge s₁ req) hfit₁ l hlnd).2.1 hvalid
  have hexact₂ : ExactOrder (postGrantAvailable s₂ req) (postGrantAllocation s₁ c req)
      (postGrantNeed s₁ c req) l := by
    refine exactOrder_mono _ _ l _ _ (fun r => ?_) hexact₁
    rw [ea1 r, ea2 r]
    have := havail r
    omega
  have hvalid₂ : ValidOrder (postGrantAvailable s₂ req) (postGrantAllocation s₂ c req)
      (postGrantNeed s₂ c req) l := by
    rw [e2, e3]
    exact (pool_eq_exactPool_of_fit _ _ _ hnn (postGrantAvailable_ge s₂ req) hfit₂ l
      hlnd).2.2 hexact₂
  obtain ⟨st, t₂, l₀, hrun, -⟩ := bankers_algorithm_spec hR s₂ c req
  rcases (bankers_algorithm_frame s₂ c req st t₂ hrun).2 with h0 | h1
  · subst h0; exact ⟨t₂, hrun⟩
  · subst h1
    have hnn₂ : ∀ c' r, 0 ≤ postGrantAllocation s₂ c req c' r := by
      rw [e2]; exact hnn
    have hsup : ∀ r, postGrantSupply s₂ c req r ≤ 2147483647 := fun r => by
      unfold postGrantSupply
      rw [e2]
      exact hfit₂ r
    exact absurd hvalid₂ (no_order_when_stuck hR s₂ c req t₂ hnn₂ hsup hrun l hperm)

/-- Witness of the amended C20: `stateFresh` with `available = [3]` against the
same matrices with `available = [4]`, for the request `[1]` of customer `0`. -/
theorem bankers_algorithm_monotone_amended_witness :
    ∃ t₂, bankers_algorithm
      (mkState (fun _ => 4) (fun _ _ => 2) (fun _ _ => 0) (fun _ _ => 2) : State 2 1) 0
      (fun _ => 1) = .ok (0, t₂) :=
  bankers_algorithm_monotone_amended (by decide) stateFresh
    (mkState (fun _ => 4) (fun _ _ => 2) (fun _ _ => 0) (fun _ _ => 2)) 0 (fun _ => 1) _
    ⟨rfl, rfl⟩ (by decide) (by decide) (by decide) (by decide) (by decide) rfl

end Banker
